import Mathlib

/-!
Verification of the GBlocks trimming core (`src/gblock.py`).

The Python core is shallowly embedded: residue strings become `List Char`,
Python `float` ratios become `ℚ`, Python `int` becomes `Int`, and functions
that `raise` return `Except String _`.  Definitions keep the source's names
and structure; imperative loops become structural recursions carrying the
same state.
-/

namespace GBlock

/-- Column metrics record (`dict` with keys `gap_ratio`, `cons_ratio` in the
source); floats are modelled as rationals. -/
structure Met where
  gap_ratio : ℚ
  cons_ratio : ℚ
deriving Repr, DecidableEq, Inhabited

/-- Body of the per-column loop of `column_metrics` (src/gblock.py:157-167):
metrics of column `i` of `aligned_seqs`. -/
def metAt (seqs : List (List Char)) (i : Nat) : Met :=
  let n := seqs.length
  let col := seqs.map (fun s => s.getD i '-')
  let gaps := col.countP (fun c => c = '-')
  let non := col.filter (fun c => c ≠ '-')
  let gap_ratio : ℚ := (gaps : ℚ) / (n : ℚ)
  let cons_ratio : ℚ :=
    if non = [] then 0
    else (((non.map (fun c => non.count c)).foldr max 0 : Nat) : ℚ) / (non.length : ℚ)
  ⟨gap_ratio, cons_ratio⟩

/-- `column_metrics` (src/gblock.py:155-168): one `Met` per column
`0 ≤ i < L` where `L` is the length of the first sequence. -/
def column_metrics (seqs : List (List Char)) : List Met :=
  (List.range (seqs.headD []).length).map (metAt seqs)

/-- Loop of `_allow_short_nonconserved_runs` (src/gblock.py:177-189).
`prev` is the value of the mask entry just before the current suffix
(`False` at the start of the list, where there is no left neighbour).
A maximal run of `False` entries is promoted to `True` when its length is
at most `max_run` and it is bounded by `True` entries on both sides. -/
def absorbGo (max_run : Int) : Bool → List Bool → List Bool
  | _, [] => []
  | _, true :: rest => true :: absorbGo max_run true rest
  | prev, false :: rest =>
    let k := 1 + (rest.takeWhile (fun b => !b)).length
    let rest2 := rest.dropWhile (fun b => !b)
    let promote := prev && decide ((k : Int) ≤ max_run) && rest2.headD false
    List.replicate k promote ++ absorbGo max_run false rest2
termination_by _ l => l.length
decreasing_by
  · simp only [List.length_cons]; omega
  · have h : (List.dropWhile (fun b : Bool => !b) rest).length ≤ rest.length :=
      List.Sublist.length_le (List.dropWhile_sublist _)
    simp only [List.length_cons]
    omega

/-- `_allow_short_nonconserved_runs` (src/gblock.py:170-190). -/
def _allow_short_nonconserved_runs (mask : List Bool) (max_run : Int) : List Bool :=
  if max_run ≤ 0 then mask else absorbGo max_run false mask

/-- Loop of `find_blocks` (src/gblock.py:192-199): `i` is the current index,
`st` the start of the currently open run of kept columns (if any); the
virtual trailing `False` of `mask+[False]` is realised by the `[]` cases. -/
def findGo (min_len : Int) : Nat → Option Nat → List Bool → List (Nat × Nat)
  | _, none, [] => []
  | i, some st, [] => if min_len ≤ (i : Int) - (st : Int) then [(st, i)] else []
  | i, none, true :: rest => findGo min_len (i+1) (some i) rest
  | i, some st, true :: rest => findGo min_len (i+1) (some st) rest
  | i, none, false :: rest => findGo min_len (i+1) none rest
  | i, some st, false :: rest =>
    (if min_len ≤ (i : Int) - (st : Int) then [(st, i)] else []) ++ findGo min_len (i+1) none rest

/-- `find_blocks` (src/gblock.py:192-199). -/
def find_blocks (mask : List Bool) (min_len : Int) : List (Nat × Nat) :=
  findGo min_len 0 none mask

/-- Flank test of `soft_trim_block` (src/gblock.py:203-204):
`mets[i]["gap_ratio"] <= max_gap and mets[i]["cons_ratio"] >= flank_cons`. -/
def flank_ok (mets : List Met) (flank_cons max_gap : ℚ) (i : Nat) : Bool :=
  decide ((mets.getD i ⟨0, 0⟩).gap_ratio ≤ max_gap) &&
    decide (flank_cons ≤ (mets.getD i ⟨0, 0⟩).cons_ratio)

/-- First loop of `soft_trim_block` (src/gblock.py:203): advance `s` while it
fails the flank test. -/
def trim_left (mets : List Met) (fc mg : ℚ) (s e : Nat) : Nat :=
  if h : s < e ∧ flank_ok mets fc mg s = false then trim_left mets fc mg (s+1) e else s
termination_by e - s
decreasing_by omega

/-- Second loop of `soft_trim_block` (src/gblock.py:204): retreat `e` while
column `e-1` fails the flank test. -/
def trim_right (mets : List Met) (fc mg : ℚ) (s e : Nat) : Nat :=
  if h : s < e ∧ flank_ok mets fc mg (e-1) = false then trim_right mets fc mg s (e-1) else e
termination_by e
decreasing_by omega

/-- `soft_trim_block` (src/gblock.py:201-205). -/
def soft_trim_block (b : Nat × Nat) (mets : List Met) (flank_cons max_gap : ℚ) :
    Option (Nat × Nat) :=
  let s := trim_left mets flank_cons max_gap b.1 b.2
  let e := trim_right mets flank_cons max_gap s b.2
  if s < e then some (s, e) else none

/-- `all_equal_length` (src/gblock.py:30-31): the set of residue lengths is a
singleton. -/
def all_equal_length (entries : List (String × List Char)) : Bool :=
  decide ((entries.map (fun e => e.2.length)).dedup.length = 1)

/-- Base keep-mask of `gblock_filter` (src/gblock.py:217). -/
def base_mask (mets : List Met) (max_gap min_cons : ℚ) : List Bool :=
  mets.map (fun m => decide (m.gap_ratio ≤ max_gap) && decide (min_cons ≤ m.cons_ratio))

/-- Mask used by `gblock_filter` after optional run absorption
(src/gblock.py:217-219). -/
def gblock_mask (seqs : List (List Char)) (max_gap min_cons : ℚ) (max_noncons_run : Int) :
    List Bool :=
  let mask := base_mask (column_metrics seqs) max_gap min_cons
  if 0 < max_noncons_run then _allow_short_nonconserved_runs mask max_noncons_run else mask

/-- Blocks surviving extraction and the optional flank trim
(src/gblock.py:221-224); the `(tb[1]-tb[0])>=min_block_len` filter of the
walrus comprehension is fused into the `filterMap`. -/
def gblock_blocks (seqs : List (List Char)) (min_block_len : Int) (max_gap min_cons : ℚ)
    (flank_cons : Option ℚ) (max_noncons_run : Int) : List (Nat × Nat) :=
  let mets := column_metrics seqs
  let blocks := find_blocks (gblock_mask seqs max_gap min_cons max_noncons_run) min_block_len
  match flank_cons with
  | none => blocks
  | some fc => blocks.filterMap (fun b =>
      match soft_trim_block b mets fc max_gap with
      | some tb => if min_block_len ≤ (tb.2 : Int) - (tb.1 : Int) then some tb else none
      | none => none)

/-- Retained column indices of `gblock_filter` (src/gblock.py:227-230),
including the optional `drop_all_gap_columns` cleanup. -/
def gblock_keep (seqs : List (List Char)) (min_block_len : Int) (max_gap min_cons : ℚ)
    (flank_cons : Option ℚ) (drop_all_gap_columns : Bool) (max_noncons_run : Int) : List Nat :=
  let keep := (gblock_blocks seqs min_block_len max_gap min_cons flank_cons
      max_noncons_run).flatMap (fun b => List.range' b.1 (b.2 - b.1))
  if drop_all_gap_columns then
    keep.filter (fun i => seqs.any (fun s => decide (s.getD i '-' ≠ '-')))
  else keep

/-- `gblock_filter` (src/gblock.py:207-234); the `ValueError` on unequal
lengths becomes an `Except.error`. -/
def gblock_filter (entries : List (String × List Char)) (min_block_len : Int)
    (max_gap min_cons : ℚ) (flank_cons : Option ℚ) (drop_all_gap_columns : Bool)
    (max_noncons_run : Int) : Except String (List (String × List Char)) :=
  if all_equal_length entries = false then
    .error "All sequences must be equal length (pre-aligned MSA required)."
  else
    let seqs := entries.map (fun e => e.2)
    let blocks := gblock_blocks seqs min_block_len max_gap min_cons flank_cons max_noncons_run
    if blocks = [] then .ok (entries.map (fun e => (e.1, ([] : List Char))))
    else
      let keep := gblock_keep seqs min_block_len max_gap min_cons flank_cons
        drop_all_gap_columns max_noncons_run
      .ok (entries.map (fun e => (e.1, keep.map (fun i => e.2.getD i '-'))))

/-- Inner cell computation of `nw_align` (src/gblock.py:62-74): given the
previous row `prev` of the score/trace matrix (as a function of the column
index) and the row index `i1 ≥ 1` whose sequence character is `ai`, compute
`(score[i1][j], trace[i1][j])`.  Trace codes follow the source:
`1` = diagonal, `2` = up, `3` = left. -/
def nwRowFun (b : List Char) (mt mm gp : Int) (ai : Char) (i1 : Nat)
    (prev : Nat → Int × Nat) : Nat → Int × Nat
  | 0 => ((i1 : Int) * gp, 2)
  | j+1 =>
    let sdiag := (prev j).1 + (if ai = b.getD j ' ' then mt else mm)
    let sup := (prev (j+1)).1 + gp
    let sleft := (nwRowFun b mt mm gp ai i1 prev j).1 + gp
    if sup ≤ sdiag ∧ sleft ≤ sdiag then (sdiag, 1)
    else if sleft ≤ sup then (sup, 2)
    else (sleft, 3)

/-- The Needleman-Wunsch score/trace matrix of `nw_align`
(src/gblock.py:54-74) as a function of the two matrix indices:
`nwCell a b mt mm gp i j = (score[i][j], trace[i][j])`. -/
def nwCell (a b : List Char) (mt mm gp : Int) : Nat → Nat → Int × Nat
  | 0 => fun j =>
    match j with
    | 0 => (0, 0)
    | j+1 => (((j : Int) + 1) * gp, 3)
  | i+1 => nwRowFun b mt mm gp (a.getD i ' ') (i+1) (nwCell a b mt mm gp i)

/-- Traceback loop of `nw_align` (src/gblock.py:75-81).  The source's
`while i>0 or j>0` loop is given explicit fuel; `nw_align` supplies
`n + m`, which suffices because every step decreases `i + j`.  The source
appends characters and reverses at the end; here each recursive step
appends its characters on the right, which yields the same order. -/
def tracebackGo (a b : List Char) (cell : Nat → Nat → Int × Nat) :
    Nat → Nat → Nat → List Char × List Char
  | 0, _, _ => ([], [])
  | fuel+1, i, j =>
    if i = 0 ∧ j = 0 then ([], [])
    else
      let t := (cell i j).2
      if t = 1 then
        let p := tracebackGo a b cell fuel (i-1) (j-1)
        (p.1 ++ [a.getD (i-1) ' '], p.2 ++ [b.getD (j-1) ' '])
      else if t = 2 then
        let p := tracebackGo a b cell fuel (i-1) j
        (p.1 ++ [a.getD (i-1) ' '], p.2 ++ ['-'])
      else
        let p := tracebackGo a b cell fuel i (j-1)
        (p.1 ++ ['-'], p.2 ++ [b.getD (j-1) ' '])

/-- `nw_align` (src/gblock.py:54-81). -/
def nw_align (a b : List Char) (mt mm gp : Int) : List Char × List Char :=
  tracebackGo a b (nwCell a b mt mm gp) (a.length + b.length) a.length b.length

/-- Loop of `gap_pattern_from_aligned_base` (src/gblock.py:84-90): returns
the list of gap-run lengths immediately preceding each non-gap character of
`aln` (in order) together with the trailing gap-run length. -/
def gapRunsGo (run : Nat) : List Char → List Nat × Nat
  | [] => ([], run)
  | c :: rest =>
    if c = '-' then gapRunsGo (run + 1) rest
    else
      let p := gapRunsGo 0 rest
      (run :: p.1, p.2)

/-- `gap_pattern_from_aligned_base` (src/gblock.py:83-91): an array of
`L+1` counters, entry `k < L` holding the gap run before base position `k`
(runs beyond the `L`-th non-gap character are discarded by the source's
`if i_base<L` guard) and entry `L` holding the trailing run. -/
def gap_pattern_from_aligned_base (base_ref aln_base : List Char) : List Nat :=
  let L := base_ref.length
  let p := gapRunsGo 0 aln_base
  (List.range L).map (fun k => p.1.getD k 0) ++ [p.2]

/-- `merge_gap_patterns_max` (src/gblock.py:93-99). -/
def merge_gap_patterns_max (p1 p2 : List Nat) : List Nat :=
  (List.range (max p1.length p2.length)).map (fun i => max (p1.getD i 0) (p2.getD i 0))

/-- First loop of `expand_to_pattern` (src/gblock.py:103-106): rebuild a
virtual aligned copy of the reference in which every non-gap character of
`aln_seq` consumes the next reference character. -/
def expandAlnBase (base_ref : List Char) (j : Nat) : List Char → List Char
  | [] => []
  | c :: rest =>
    if c = '-' then '-' :: expandAlnBase base_ref j rest
    else base_ref.getD j ' ' :: expandAlnBase base_ref (j + 1) rest

/-- Inner `while` of `expand_to_pattern` (src/gblock.py:110-113): copy
characters of the aligned sequence (paired with the virtual base) up to and
including the next base-consuming character; returns the copied chunk and
the remaining pairs. -/
def copyChunk : List (Char × Char) → List Char × List (Char × Char)
  | [] => ([], [])
  | (ca, cb) :: rest =>
    if cb ≠ '-' then ([ca], rest)
    else
      let p := copyChunk rest
      (ca :: p.1, p.2)

/-- Outer `for k in range(L)` loop of `expand_to_pattern`
(src/gblock.py:108-113): before each reference position emit the target
number of gaps, then one chunk. -/
def expandGo : List Nat → List (Char × Char) → List Char
  | [], _ => []
  | g :: gs, pairs =>
    let p := copyChunk pairs
    List.replicate g '-' ++ p.1 ++ expandGo gs p.2

/-- `expand_to_pattern` (src/gblock.py:101-115). -/
def expand_to_pattern (base_ref aln_seq : List Char) (target_gaps : List Nat) : List Char :=
  let aln_base := expandAlnBase base_ref 0 aln_seq
  expandGo (target_gaps.take base_ref.length) (aln_seq.zip aln_base) ++
    List.replicate (target_gaps.getD base_ref.length 0) '-'

/-- Center selection of `center_star_align` (src/gblock.py:118): index of
the longest sequence, first occurrence winning ties (Python `max` keeps the
first maximal element). -/
def center_idx (entries : List (String × List Char)) : Nat :=
  (List.range entries.length).foldl
    (fun best i =>
      if (entries.getD best ("", [])).2.length < (entries.getD i ("", [])).2.length then i
      else best)
    0

/-- `center_star_align` (src/gblock.py:117-133).  The per-entry loop is a
fold carrying `(master_gaps, aligned entries so far)`; the final reordering
uses the source's header-to-last-input-index dictionary as sort key with a
stable sort. -/
def center_star_align (entries : List (String × List Char)) (mt mm gp : Int) :
    List (String × List Char) :=
  let c := center_idx entries
  let base_ref := (entries.getD c ("", [])).2
  let step := fun (st : List Nat × List (String × List Char)) (e : String × List Char) =>
    let al := nw_align base_ref e.2 mt mm gp
    let gaps_new := gap_pattern_from_aligned_base base_ref al.1
    let merged := merge_gap_patterns_max st.1 gaps_new
    let acc := st.2.map (fun p2 => (p2.1, expand_to_pattern base_ref p2.2 merged))
    (merged, acc ++ [(e.1, expand_to_pattern base_ref al.2 merged)])
  let res := entries.foldl step (List.replicate (base_ref.length + 1) 0, [])
  let order : String → Nat := fun h =>
    entries.enum.foldl (fun acc ie => if ie.2.1 = h then ie.1 else acc) 0
  res.2.mergeSort (fun x y => decide (order x.1 ≤ order y.1))

/-- Python `str.strip()` whitespace test, restricted to the ASCII
whitespace characters. -/
def py_isspace (c : Char) : Bool :=
  c = ' ' || c = '\t' || c = '\n' || c = '\r' || c = '\x0b' || c = '\x0c'

/-- Python `str.strip()` on a line: drop leading and trailing whitespace. -/
def pyStrip (s : List Char) : List Char :=
  ((s.dropWhile py_isspace).reverse.dropWhile py_isspace).reverse

/-- Loop of `parse_fasta` (src/gblock.py:6-16) over the file's lines:
`h` is the pending header, `buf` the residue chunks collected so far. -/
def parseGo (h : Option (List Char)) (buf : List (List Char)) :
    List (List Char) → List (List Char × List Char)
  | [] =>
    match h with
    | none => []
    | some hh => [(hh, buf.flatten)]
  | raw :: rest =>
    let s := pyStrip raw
    if s = [] then parseGo h buf rest
    else if s.headD ' ' = '>' then
      let pre : List (List Char × List Char) :=
        match h with
        | none => []
        | some hh => [(hh, buf.flatten)]
      let t := pyStrip (s.drop 1)
      pre ++ parseGo (some (if t = [] then "unnamed".toList else t)) [] rest
    else parseGo h (buf ++ [s]) rest

/-- `parse_fasta` (src/gblock.py:5-18) over the list of lines of the file;
the `ValueError` on zero entries becomes an `Except.error`. -/
def parse_fasta (lines : List (List Char)) : Except String (List (List Char × List Char)) :=
  let xs := parseGo none [] lines
  if xs = [] then .error "No FASTA entries found." else .ok xs

/-- Wrapping loop of `write_fasta` (src/gblock.py:25-26): the chunks
`seq[i:i+w]` for `i = 0, w, 2w, ...`, for `w ≥ 1`. -/
def chunkList (w : Nat) : List Char → List (List Char)
  | [] => []
  | c :: rest => (c :: rest.take (w - 1)) :: chunkList w (rest.drop (w - 1))
termination_by l => l.length
decreasing_by
  simp only [List.length_cons]
  have h := List.length_drop (w - 1) rest
  omega

/-- `write_fasta` (src/gblock.py:20-28) as the list of lines written:
a header line followed by the wrapped (or unwrapped) residue lines. -/
def write_fasta (entries : List (List Char × List Char)) (wrap : Int) : List (List Char) :=
  entries.flatMap (fun e =>
    ('>' :: e.1) :: (if 0 < wrap then chunkList wrap.toNat e.2 else [e.2]))

/-- Digit-string to number, used by the modelled `float` literal parser. -/
def digitsVal (l : List Char) : Nat :=
  l.foldl (fun a c => a * 10 + (c.toNat - 48)) 0

/-- Modelled semantics of the Python builtin `float(mode)` used at
src/gblock.py:252, restricted to plain decimal literals `digits[.digits]`;
any other string is a parse failure (the source catches the exception and
falls back to `0.5`). -/
def parseDecimal? (s : List Char) : Option ℚ :=
  let ip := s.takeWhile (fun c => c ≠ '.')
  let rest := s.dropWhile (fun c => c ≠ '.')
  match rest with
  | [] => if ip ≠ [] ∧ ip.all Char.isDigit then some ((digitsVal ip : Nat) : ℚ) else none
  | _ :: fp =>
    if fp.any (fun c => c = '.') then none
    else if ip = [] ∧ fp = [] then none
    else if ip.all Char.isDigit ∧ fp.all Char.isDigit then
      some (((digitsVal ip : Nat) : ℚ) + ((digitsVal fp : Nat) : ℚ) / ((10 : ℚ) ^ fp.length))
    else none

/-- `gb_allowed_gap_to_max_gap` (src/gblock.py:246-254). -/
def gb_allowed_gap_to_max_gap (mode : List Char) : ℚ :=
  let m := mode.map Char.toLower
  if m = "none".toList then 0
  else if m = "half".toList then 1/2
  else if m = "all".toList then 1
  else
    match parseDecimal? m with
    | some v => max 0 (min 1 v)
    | none => 1/2

/-- `convert_gblocks_params_to_internal` (src/gblock.py:256-270); returns
`(min_block_len, max_gap, min_cons, flank_cons, max_noncons_run)` in the
source's order. -/
def convert_gblocks_params_to_internal (N gb_min_cons_count gb_flank_cons_count
    gb_max_noncons_run gb_min_block_len : Int) (gb_allowed_gap : List Char) :
    Int × ℚ × ℚ × ℚ × Int :=
  let N1 := max 1 N
  let mc := max 1 (min gb_min_cons_count N1)
  let mf := max 1 (min gb_flank_cons_count N1)
  let min_cons : ℚ := (mc : ℚ) / (N1 : ℚ)
  let flank_cons : ℚ := (mf : ℚ) / (N1 : ℚ)
  let max_gap := gb_allowed_gap_to_max_gap gb_allowed_gap
  let min_block_len := max 1 gb_min_block_len
  let max_noncons_run := max 0 gb_max_noncons_run
  (min_block_len, max_gap, min_cons, flank_cons, max_noncons_run)

/-! Concrete input of the spec's worked example (claim C3). -/

def c3seqs : List (List Char) := ["MSTAG".toList, "MST-G".toList, "MSTTG".toList]

def c3entries : List (String × List Char) :=
  [("s1", "MSTAG".toList), ("s2", "MST-G".toList), ("s3", "MSTTG".toList)]

lemma c3_mets : column_metrics c3seqs = [⟨0, 1⟩, ⟨0, 1⟩, ⟨0, 1⟩, ⟨1/3, 1/2⟩, ⟨0, 1⟩] := by
  simp only [c3seqs, column_metrics]
  rw [show List.range ((["MSTAG".toList, "MST-G".toList, "MSTTG".toList] :
    List (List Char)).headD []).length = [0, 1, 2, 3, 4] from rfl]
  simp [metAt]

lemma c3_mask : gblock_mask c3seqs (34/100) (67/100) 0 = [true, true, true, false, true] := by
  simp only [gblock_mask, c3_mets]
  norm_num [base_mask, _allow_short_nonconserved_runs]

lemma c3_met3 : (column_metrics c3seqs).getD 3 ⟨0, 0⟩ = ⟨1/3, 1/2⟩ := by
  rw [c3_mets]; rfl

lemma c3_blocks : gblock_blocks (c3entries.map (fun e => e.2)) 3 (34/100) (67/100) none 0 =
    [(0, 3)] := by
  simp only [gblock_blocks]
  rw [show (c3entries.map (fun e => e.2)) = c3seqs from rfl, c3_mask]
  rfl

lemma c3_keep : gblock_keep (c3entries.map (fun e => e.2)) 3 (34/100) (67/100) none false 0 =
    [0, 1, 2] := by
  simp only [gblock_keep, gblock_blocks]
  rw [show (c3entries.map (fun e => e.2)) = c3seqs from rfl, c3_mask]
  rfl

lemma c3_result : gblock_filter c3entries 3 (34/100) (67/100) none false 0 =
    .ok [("s1", "MST".toList), ("s2", "MST".toList), ("s3", "MST".toList)] := by
  simp only [gblock_filter, c3_blocks, c3_keep]
  rfl

/-- Claim C3 is false on the code at its own input: column 3's gap ratio is
`1/3`, not `0.33`, and the kept run `[0,3)` has length `3 ≥ minBlockLen`,
so `find_blocks` keeps it (it is not discarded) and the filter output is
not empty. -/
theorem claim3_counterexample :
    (column_metrics c3seqs).getD 3 ⟨0, 0⟩ ≠ ⟨33/100, 1/2⟩ ∧
    find_blocks (gblock_mask c3seqs (34/100) (67/100) 0) 3 = [(0, 3)] ∧
    gblock_filter c3entries 3 (34/100) (67/100) none false 0 ≠
      .ok [("s1", []), ("s2", []), ("s3", [])] := by
  refine ⟨?_, by rw [c3_mask]; rfl, ?_⟩
  · rw [c3_met3]
    intro h
    rw [Met.mk.injEq] at h
    norm_num at h
  · rw [c3_result]
    intro h
    have h2 := Except.ok.inj h
    exact absurd (congrArg (fun l => List.getD l 0 ("", [])) h2) (by decide)

/-- Claim C3 amended: on the worked example, column 3 has gap ratio `1/3`
(≈ 0.33) and conservation ratio `1/2`, fails `minCons = 0.67` and is
dropped; the kept run `[4,5)` fails `minBlockLen = 3` and is discarded but
`[0,3)` meets it (3 ≥ 3) and survives, so the output keeps columns 0-2. -/
theorem claim3_amended :
    (column_metrics c3seqs).getD 3 ⟨0, 0⟩ = ⟨1/3, 1/2⟩ ∧
    gblock_mask c3seqs (34/100) (67/100) 0 = [true, true, true, false, true] ∧
    find_blocks (gblock_mask c3seqs (34/100) (67/100) 0) 3 = [(0, 3)] ∧
    gblock_filter c3entries 3 (34/100) (67/100) none false 0 =
      .ok [("s1", "MST".toList), ("s2", "MST".toList), ("s3", "MST".toList)] :=
  ⟨c3_met3, c3_mask, by rw [c3_mask]; rfl, c3_result⟩

/-- Claim C7: for sequence count `N ≥ 1` the parameter translator computes
`minCons = clamp(minConsCount,1,N)/N`, `flankCons = clamp(flankConsCount,1,N)/N`,
`minBlockLen = max(1, given)`, `maxNonconsRun = max(0, given)`, and the
allowed-gap modes map to `0 / 0.5 / 1` (case-insensitively; a literal
numeric string is parsed as a fraction), with
`gb_allowed_gap_to_max_gap "Half" = 0.5` and `minCons = 0.9` for
`N = 10, minConsCount = 9`. -/
theorem claim7_param_translator (N mc mf mnr mbl : Int) (g : List Char) (hN : 1 ≤ N) :
    convert_gblocks_params_to_internal N mc mf mnr mbl g =
      (max 1 mbl, gb_allowed_gap_to_max_gap g,
        ((max 1 (min mc N) : Int) : ℚ) / (N : ℚ),
        ((max 1 (min mf N) : Int) : ℚ) / (N : ℚ), max 0 mnr) ∧
    gb_allowed_gap_to_max_gap "none".toList = 0 ∧
    gb_allowed_gap_to_max_gap "half".toList = 1/2 ∧
    gb_allowed_gap_to_max_gap "all".toList = 1 ∧
    gb_allowed_gap_to_max_gap "Half".toList = 1/2 ∧
    gb_allowed_gap_to_max_gap "0.25".toList = 1/4 ∧
    (convert_gblocks_params_to_internal 10 9 14 8 10 "None".toList).2.2.1 = 9/10 := by
  refine ⟨?_, rfl, rfl, rfl, rfl, ?_, ?_⟩
  · simp only [convert_gblocks_params_to_internal, max_eq_right hN]
  · show max 0 (min 1 ((0 : ℚ) + 25 / 10 ^ 2)) = 1/4
    norm_num
  · show ((9 : Int) : ℚ) / ((10 : Int) : ℚ) = 9/10
    norm_num

/-- Witness for `claim7_param_translator` at `N = 10`. -/
theorem claim7_param_translator_witness :
    (1 : Int) ≤ 10 ∧
    convert_gblocks_params_to_internal 10 9 14 8 10 "None".toList =
      (max 1 10, gb_allowed_gap_to_max_gap "None".toList,
        ((max 1 (min 9 10) : Int) : ℚ) / ((10 : Int) : ℚ),
        ((max 1 (min 14 10) : Int) : ℚ) / ((10 : Int) : ℚ), max 0 8) :=
  ⟨by decide, (claim7_param_translator 10 9 14 8 10 "None".toList (by decide)).1⟩

/-! Claim C1: input on which the center-star builder mis-handles an
insertion relative to the reference (a gap inside the aligned copy of the
reference) and produces sequences of unequal length. -/

def c1entries : List (String × List Char) := [("x", "CAB".toList), ("y", "ABC".toList)]

lemma c1_presort : center_star_align c1entries 1 (-1) (-2) =
    List.mergeSort [("x", "CAB-".toList), ("y", "-ABC-".toList)]
      (fun p q => decide
        ((c1entries.enum.foldl (fun acc ie => if ie.2.1 = p.1 then ie.1 else acc) 0) ≤
          (c1entries.enum.foldl (fun acc ie => if ie.2.1 = q.1 then ie.1 else acc) 0))) := rfl

/-- Claim C1 fails on the code: `nw_align "CAB" "ABC"` yields the aligned
pair `("CAB-", "-ABC")` (a gap inside the aligned reference), which
`expand_to_pattern` mis-expands, so `center_star_align` returns residues
`"CAB-"` and `"-ABC-"` of unequal lengths 4 and 5.  Residue content and
entry order are preserved here, but the output is not an equal-length
MSA, contradicting the claim (and the pipeline's own post-condition at
src/gblock.py:243). -/
theorem claim1_center_star_unequal_lengths :
    nw_align "CAB".toList "ABC".toList 1 (-1) (-2) = ("CAB-".toList, "-ABC".toList) ∧
    center_star_align c1entries 1 (-1) (-2) =
      [("x", "CAB-".toList), ("y", "-ABC-".toList)] ∧
    (center_star_align c1entries 1 (-1) (-2)).map (fun p => p.2.length) = [4, 5] ∧
    all_equal_length (center_star_align c1entries 1 (-1) (-2)) = false := by
  have key : center_star_align c1entries 1 (-1) (-2) =
      [("x", "CAB-".toList), ("y", "-ABC-".toList)] := by
    rw [c1_presort]
    exact List.mergeSort_of_sorted (by decide)
  refine ⟨rfl, key, ?_, ?_⟩
  · rw [key]; rfl
  · rw [key]; rfl

/-! Claim C2: counterexample input for idempotence with
`drop_all_gap_columns = true`: an absorbed all-gap run is kept by the mask
but dropped from the output, leaving a second-pass matrix too short for
`min_block_len`. -/

def c2entries : List (String × List Char) := [("s", "AAAA--AAAA".toList)]

lemma c2_mets : column_metrics ["AAAA--AAAA".toList] =
    [⟨0, 1⟩, ⟨0, 1⟩, ⟨0, 1⟩, ⟨0, 1⟩, ⟨1, 0⟩, ⟨1, 0⟩, ⟨0, 1⟩, ⟨0, 1⟩, ⟨0, 1⟩, ⟨0, 1⟩] := by
  simp only [column_metrics]
  rw [show List.range ((["AAAA--AAAA".toList] : List (List Char)).headD []).length =
    [0, 1, 2, 3, 4, 5, 6, 7, 8, 9] from rfl]
  simp [metAt]

lemma c2_mask : gblock_mask ["AAAA--AAAA".toList] (1/2) (7/10) 2 =
    [true, true, true, true, true, true, true, true, true, true] := by
  simp only [gblock_mask, c2_mets]
  have hb : base_mask
      [⟨0, 1⟩, ⟨0, 1⟩, ⟨0, 1⟩, ⟨0, 1⟩, ⟨1, 0⟩, ⟨1, 0⟩, ⟨0, 1⟩, ⟨0, 1⟩, ⟨0, 1⟩, ⟨0, 1⟩]
      (1/2) (7/10) =
      [true, true, true, true, false, false, true, true, true, true] := by
    norm_num [base_mask]
  rw [hb]
  norm_num [_allow_short_nonconserved_runs, absorbGo, List.replicate]

lemma c2_mets2 : column_metrics ["AAAAAAAA".toList] =
    [⟨0, 1⟩, ⟨0, 1⟩, ⟨0, 1⟩, ⟨0, 1⟩, ⟨0, 1⟩, ⟨0, 1⟩, ⟨0, 1⟩, ⟨0, 1⟩] := by
  simp only [column_metrics]
  rw [show List.range ((["AAAAAAAA".toList] : List (List Char)).headD []).length =
    [0, 1, 2, 3, 4, 5, 6, 7] from rfl]
  simp [metAt]

lemma c2_mask2 : gblock_mask ["AAAAAAAA".toList] (1/2) (7/10) 2 =
    [true, true, true, true, true, true, true, true] := by
  simp only [gblock_mask, c2_mets2]
  have hb : base_mask [⟨0, 1⟩, ⟨0, 1⟩, ⟨0, 1⟩, ⟨0, 1⟩, ⟨0, 1⟩, ⟨0, 1⟩, ⟨0, 1⟩, ⟨0, 1⟩]
      (1/2) (7/10) = [true, true, true, true, true, true, true, true] := by
    norm_num [base_mask]
  rw [hb]
  norm_num [_allow_short_nonconserved_runs, absorbGo, List.replicate]

/-- Claim C2 is false as stated: with `drop_all_gap_columns = true` held
constant, `gblock_filter` is not idempotent.  On a single sequence
`AAAA--AAAA` with `min_block_len = 10`, `max_noncons_run = 2`, the all-gap
run is absorbed into the block but dropped from the output (8 columns);
re-filtering that output finds its only kept run shorter than
`min_block_len` and returns empty sequences. -/
theorem claim2_counterexample :
    gblock_filter c2entries 10 (1/2) (7/10) none true 2 = .ok [("s", "AAAAAAAA".toList)] ∧
    gblock_filter [("s", "AAAAAAAA".toList)] 10 (1/2) (7/10) none true 2 = .ok [("s", [])] ∧
    gblock_filter [("s", "AAAAAAAA".toList)] 10 (1/2) (7/10) none true 2 ≠
      .ok [("s", "AAAAAAAA".toList)] := by
  have h1 : gblock_filter c2entries 10 (1/2) (7/10) none true 2 =
      .ok [("s", "AAAAAAAA".toList)] := by
    have hb : gblock_blocks (c2entries.map (fun e => e.2)) 10 (1/2) (7/10) none 2 =
        [(0, 10)] := by
      simp only [gblock_blocks]
      rw [show (c2entries.map (fun e => e.2)) = ["AAAA--AAAA".toList] from rfl, c2_mask]
      rfl
    have hk : gblock_keep (c2entries.map (fun e => e.2)) 10 (1/2) (7/10) none true 2 =
        [0, 1, 2, 3, 6, 7, 8, 9] := by
      simp only [gblock_keep, gblock_blocks]
      rw [show (c2entries.map (fun e => e.2)) = ["AAAA--AAAA".toList] from rfl, c2_mask]
      rfl
    simp only [gblock_filter, hb, hk]
    rfl
  have h2 : gblock_filter [("s", "AAAAAAAA".toList)] 10 (1/2) (7/10) none true 2 =
      .ok [("s", [])] := by
    have hb : gblock_blocks ([("s", "AAAAAAAA".toList)].map (fun e => e.2)) 10 (1/2)
        (7/10) none 2 = [] := by
      simp only [gblock_blocks]
      rw [show ([("s", "AAAAAAAA".toList)].map (fun e => e.2)) = ["AAAAAAAA".toList]
        from rfl, c2_mask2]
      rfl
    simp only [gblock_filter, hb]
    rfl
  refine ⟨h1, h2, ?_⟩
  rw [h2]
  intro h
  have h3 := Except.ok.inj h
  exact absurd (congrArg (fun l => List.getD l 0 ("", [])) h3) (by decide)

/-! Characterization of run absorption (claims C5 and C2).  A position is
promoted exactly when it lies in a maximal `False` run of length at most
`max_run` bounded by `True` entries on both sides; `prev` stands for the
entry just before the suffix being processed (`False` at the very start,
where there is no left neighbour). -/

/-- Position `k` of the suffix `xs` belongs to a run of `False` entries
`[u, v)` of length at most `r` whose left neighbour (`prev` when the run
starts the suffix) and right neighbour are `True`. -/
def promotedSuf (prev : Bool) (xs : List Bool) (r : Int) (k : Nat) : Prop :=
  ∃ u, u ≤ k ∧ ∃ v, v < xs.length ∧ k < v ∧
    (∀ t, t < v → u ≤ t → xs.getD t true = false) ∧
    ((v - u : Nat) : Int) ≤ r ∧
    (if u = 0 then prev = true else xs.getD (u - 1) false = true) ∧
    xs.getD v false = true

instance promotedSuf.dec (prev : Bool) (xs : List Bool) (r : Int) (k : Nat) :
    Decidable (promotedSuf prev xs r k) := by
  unfold promotedSuf
  infer_instance

/-- Promotion of position `k` of the whole mask: as `promotedSuf` with no
left neighbour before position `0`. -/
def promotedAt (mask : List Bool) (r : Int) (k : Nat) : Prop :=
  promotedSuf false mask r k

instance promotedAt.dec (mask : List Bool) (r : Int) (k : Nat) :
    Decidable (promotedAt mask r k) := by
  unfold promotedAt
  infer_instance

lemma getD_zero_eq_headD (l : List Bool) : l.headD false = l.getD 0 false := by
  cases l <;> rfl

lemma absorbGo_length (r : Int) (prev : Bool) (xs : List Bool) :
    (absorbGo r prev xs).length = xs.length := by
  induction prev, xs using absorbGo.induct r with
  | case1 prev => simp [absorbGo]
  | case2 prev rest ih => simp [absorbGo, ih]
  | case3 prev rest rest2 ih =>
    have hd : rest2 = List.dropWhile (fun b => !b) rest := rfl
    rw [absorbGo]
    simp only [List.length_append, List.length_replicate]
    rw [← hd, ih]
    have hlen := congrArg List.length (List.takeWhile_append_dropWhile (fun b => !b) rest)
    simp only [List.length_append] at hlen
    rw [← hd] at hlen
    simp only [List.length_cons]
    omega

lemma promotedSuf_cons_true (prev : Bool) (rest : List Bool) (r : Int) (k : Nat) :
    promotedSuf prev (true :: rest) r (k + 1) ↔ promotedSuf true rest r k := by
  constructor
  · rintro ⟨u, hu, v, hv, hkv, hall, hlen, hleft, hright⟩
    have hu1 : 1 ≤ u := by
      rcases Nat.eq_zero_or_pos u with h0 | h1
      · exfalso
        have := hall 0 (by omega) (by omega)
        rw [List.getD_cons_zero] at this
        exact Bool.true_eq_false.mp this
      · exact h1
    refine ⟨u - 1, by omega, v - 1, by simp at hv; omega, by omega, ?_, ?_, ?_, ?_⟩
    · intro t ht hut
      have := hall (t + 1) (by omega) (by omega)
      rwa [List.getD_cons_succ] at this
    · have heq : v - 1 - (u - 1) = v - u := by omega
      rw [heq]; exact hlen
    · rcases Nat.eq_zero_or_pos (u - 1) with h0 | h1
      · simp [h0]
      · have hne : ¬ (u - 1 = 0) := by omega
        rw [if_neg hne]
        rw [if_neg (by omega : ¬ u = 0)] at hleft
        have : u - 1 = (u - 1 - 1) + 1 := by omega
        rw [this, List.getD_cons_succ] at hleft
        exact hleft
    · have : v = (v - 1) + 1 := by omega
      rw [this, List.getD_cons_succ] at hright
      exact hright
  · rintro ⟨u, hu, v, hv, hkv, hall, hlen, hleft, hright⟩
    refine ⟨u + 1, by omega, v + 1, by simp; omega, by omega, ?_, ?_, ?_, ?_⟩
    · intro t ht hut
      have ht1 : t = (t - 1) + 1 := by omega
      rw [ht1, List.getD_cons_succ]
      exact hall (t - 1) (by omega) (by omega)
    · have heq : v + 1 - (u + 1) = v - u := by omega
      rw [heq]; exact hlen
    · rw [if_neg (by omega : ¬ u + 1 = 0)]
      rcases Nat.eq_zero_or_pos u with h0 | h1
      · subst h0
        simp
      · rw [if_neg (by omega : ¬ u = 0)] at hleft
        have : u + 1 - 1 = (u - 1) + 1 := by omega
        rw [this, List.getD_cons_succ]
        exact hleft
    · rw [List.getD_cons_succ]
      exact hright

lemma false_run_facts (rest : List Bool) :
    (false :: rest =
      (false :: rest.takeWhile (fun b => !b)) ++ rest.dropWhile (fun b => !b)) ∧
    (∀ (j : Nat) (d : Bool), j < 1 + (rest.takeWhile (fun b => !b)).length →
      (false :: rest).getD j d = false) ∧
    (∀ (j : Nat) (d : Bool),
      (false :: rest).getD (1 + (rest.takeWhile (fun b => !b)).length + j) d =
        (rest.dropWhile (fun b => !b)).getD j d) ∧
    ((false :: rest).length =
      1 + (rest.takeWhile (fun b => !b)).length + (rest.dropWhile (fun b => !b)).length) ∧
    (∀ (b : Bool) (l : List Bool), rest.dropWhile (fun b => !b) = b :: l → b = true) := by
  have hsplit : rest.takeWhile (fun b => !b) ++ rest.dropWhile (fun b => !b) = rest :=
    List.takeWhile_append_dropWhile _ _
  have hxs : false :: rest =
      (false :: rest.takeWhile (fun b => !b)) ++ rest.dropWhile (fun b => !b) := by
    rw [List.cons_append, hsplit]
  have hplen : (false :: rest.takeWhile (fun b => !b)).length =
      1 + (rest.takeWhile (fun b => !b)).length := by
    simp [List.length_cons]; omega
  refine ⟨hxs, ?_, ?_, ?_, ?_⟩
  · intro j d hj
    rw [hxs, List.getD_append _ _ _ j (by omega)]
    rw [List.getD_eq_getElem _ _ (by rw [hplen]; omega)]
    match j with
    | 0 => rfl
    | j' + 1 =>
      rw [List.getElem_cons_succ]
      have hmem : (rest.takeWhile (fun b => !b))[j'] ∈ rest.takeWhile (fun b => !b) :=
        List.getElem_mem _
      have := List.mem_takeWhile_imp hmem
      simp at this
      exact this
  · intro j d
    rw [hxs, List.getD_append_right _ _ _ _ (by omega)]
    congr 1
    omega
  · have := congrArg List.length hxs
    simp only [List.length_append] at this
    rw [this, hplen]
  · intro b l hbl
    have h0 : (rest.dropWhile (fun b => !b)).head? = some b := by rw [hbl]; rfl
    have := List.head?_dropWhile_not (fun b => !b) rest
    rw [h0] at this
    simpa using this

lemma promotedSuf_false_run_lt (prev : Bool) (rest : List Bool) (r : Int) (k : Nat)
    (hk : k < 1 + (rest.takeWhile (fun b => !b)).length) :
    promotedSuf prev (false :: rest) r k ↔
      (prev = true ∧ ((1 + (rest.takeWhile (fun b => !b)).length : Nat) : Int) ≤ r ∧
        (rest.dropWhile (fun b => !b)).headD false = true) := by
  obtain ⟨hxs, hfalse, hshift, hlenxs, hhead⟩ := false_run_facts rest
  set t := rest.takeWhile (fun b => !b) with ht
  set r2 := rest.dropWhile (fun b => !b) with hr2
  set kk := 1 + t.length with hkk
  rw [getD_zero_eq_headD]
  constructor
  · rintro ⟨u, hu, v, hv, hkv, hall, hlen, hleft, hright⟩
    have hu0 : u = 0 := by
      by_contra hne
      rw [if_neg hne] at hleft
      have : (false :: rest).getD (u - 1) false = false := hfalse (u - 1) false (by omega)
      rw [hleft] at this
      exact Bool.true_eq_false.mp this
    subst hu0
    rw [if_pos rfl] at hleft
    have hvkk : v = kk := by
      rcases Nat.lt_trichotomy v kk with h | h | h
      · exfalso
        have := hfalse v false h
        rw [hright] at this
        exact Bool.true_eq_false.mp this
      · exact h
      · exfalso
        have hr2ne : r2.length ≠ 0 := by omega
        have := hall kk (by omega) (by omega)
        have h2 := hshift 0 true
        rw [Nat.add_zero] at h2
        rw [h2] at this
        rcases hr2d : r2 with _ | ⟨b, l⟩
        · rw [hr2d] at hr2ne; simp at hr2ne
        · have hb := hhead b l hr2d
          rw [hr2d, List.getD_cons_zero] at this
          rw [hb] at this
          exact Bool.true_eq_false.mp this
    subst hvkk
    refine ⟨hleft, by simpa using hlen, ?_⟩
    have h2 := hshift 0 false
    rw [Nat.add_zero] at h2
    rw [← h2]
    exact hright
  · rintro ⟨hprev, hr, hhd⟩
    have hr2ne : r2 ≠ [] := by
      intro h
      rw [h] at hhd
      exact Bool.false_eq_true.mp hhd
    refine ⟨0, by omega, kk, ?_, by omega, ?_, by simpa using hr, by simpa using hprev, ?_⟩
    · rw [hlenxs]
      have : r2.length ≠ 0 := fun h => hr2ne (List.length_eq_zero.mp h)
      omega
    · intro tt htt _
      exact hfalse tt true htt
    · have h2 := hshift 0 false
      rw [Nat.add_zero] at h2
      rw [h2]
      exact hhd

lemma promotedSuf_false_run_ge (prev : Bool) (rest : List Bool) (r : Int) (k : Nat)
    (hk : 1 + (rest.takeWhile (fun b => !b)).length ≤ k) :
    promotedSuf prev (false :: rest) r k ↔
      promotedSuf false (rest.dropWhile (fun b => !b)) r
        (k - (1 + (rest.takeWhile (fun b => !b)).length)) := by
  obtain ⟨hxs, hfalse, hshift, hlenxs, hhead⟩ := false_run_facts rest
  set t := rest.takeWhile (fun b => !b) with ht
  set r2 := rest.dropWhile (fun b => !b) with hr2
  set kk := 1 + t.length with hkk
  constructor
  · rintro ⟨u, hu, v, hv, hkv, hall, hlen, hleft, hright⟩
    have hvkk : kk < v := by omega
    have hukk : kk + 1 ≤ u := by
      rcases Nat.lt_or_ge u (kk + 1) with hcase | hcase
      · exfalso
        have hu0 : ¬ u = 0 := by
          intro h0
          subst h0
          have hr2len : r2.length ≠ 0 := by rw [hlenxs] at hv; omega
          have := hall kk (by omega) (by omega)
          have h2 := hshift 0 true
          rw [Nat.add_zero] at h2
          rw [h2] at this
          rcases hr2d : r2 with _ | ⟨b, l⟩
          · rw [hr2d] at hr2len; simp at hr2len
          · have hb := hhead b l hr2d
            rw [hr2d, List.getD_cons_zero] at this
            rw [hb] at this
            exact Bool.true_eq_false.mp this
        rw [if_neg hu0] at hleft
        have : (false :: rest).getD (u - 1) false = false := hfalse (u - 1) false (by omega)
        rw [hleft] at this
        exact Bool.true_eq_false.mp this
      · exact hcase
    refine ⟨u - kk, by omega, v - kk, by rw [hlenxs] at hv; omega, by omega, ?_, ?_, ?_, ?_⟩
    · intro tt htt hutt
      have h2 := hshift tt true
      rw [← h2]
      have heq : kk + tt = tt + kk := by omega
      have := hall (kk + tt) (by omega) (by omega)
      exact this
    · have heq : v - kk - (u - kk) = v - u := by omega
      rw [heq]; exact hlen
    · rw [if_neg (by omega : ¬ u - kk = 0)]
      rw [if_neg (by omega : ¬ u = 0)] at hleft
      have h2 := hshift (u - kk - 1) false
      have heq : kk + (u - kk - 1) = u - 1 := by omega
      rw [heq] at h2
      rw [← h2]
      exact hleft
    · have h2 := hshift (v - kk) false
      have heq : kk + (v - kk) = v := by omega
      rw [heq] at h2
      rw [← h2]
      exact hright
  · rintro ⟨u, hu, v, hv, hkv, hall, hlen, hleft, hright⟩
    have hu0 : ¬ u = 0 := by
      intro h0
      rw [h0, if_pos rfl] at hleft
      exact Bool.false_eq_true.mp hleft
    rw [if_neg hu0] at hleft
    refine ⟨u + kk, by omega, v + kk, by rw [hlenxs]; omega, by omega, ?_, ?_, ?_, ?_⟩
    · intro tt htt hutt
      have h2 := hshift (tt - kk) true
      have heq : kk + (tt - kk) = tt := by omega
      rw [heq] at h2
      rw [h2]
      exact hall (tt - kk) (by omega) (by omega)
    · have heq : v + kk - (u + kk) = v - u := by omega
      rw [heq]; exact hlen
    · rw [if_neg (by omega : ¬ u + kk = 0)]
      have h2 := hshift (u - 1) false
      have heq : kk + (u - 1) = u + kk - 1 := by omega
      rw [heq] at h2
      rw [h2]
      exact hleft
    · have h2 := hshift v false
      have heq : kk + v = v + kk := by omega
      rw [heq] at h2
      rw [h2]
      exact hright

lemma band_decide_eq (a b : Bool) (p : Prop) [Decidable p] :
    (a && decide p && b) = decide (a = true ∧ p ∧ b = true) := by
  cases a <;> cases b <;> by_cases hp : p <;> simp [hp]

lemma absorbGo_getD (r : Int) (prev : Bool) (xs : List Bool) (k : Nat) :
    (absorbGo r prev xs).getD k false =
      (xs.getD k false || decide (promotedSuf prev xs r k)) := by
  induction prev, xs using absorbGo.induct r generalizing k with
  | case1 prev =>
    have hnot : ¬ promotedSuf prev [] r k := by
      rintro ⟨u, hu, v, hv, _⟩
      simp at hv
    simp [absorbGo, hnot]
  | case2 prev rest ih =>
    match k with
    | 0 => simp [absorbGo]
    | k + 1 =>
      rw [absorbGo, List.getD_cons_succ, List.getD_cons_succ, ih k]
      congr 1
      exact decide_eq_decide.mpr (promotedSuf_cons_true prev rest r k).symm
  | case3 prev rest rest2 ih =>
    have hd : rest2 = List.dropWhile (fun b => !b) rest := rfl
    obtain ⟨hxs, hfalse, hshift, hlenxs, hhead⟩ := false_run_facts rest
    rw [absorbGo]
    rcases Nat.lt_or_ge k (1 + (rest.takeWhile (fun b => !b)).length) with hcase | hcase
    · rw [List.getD_append _ _ _ k (by simpa using hcase)]
      rw [List.getD_eq_getElem _ _ (by simpa using hcase), List.getElem_replicate]
      rw [hfalse k false hcase, Bool.false_or]
      rw [decide_eq_decide.mpr (promotedSuf_false_run_lt prev rest r k hcase)]
      exact band_decide_eq prev _ _
    · rw [List.getD_append_right _ _ _ _ (by simpa using hcase)]
      rw [List.length_replicate, ← hd]
      rw [ih]
      have hr2 := hshift (k - (1 + (rest.takeWhile (fun b => !b)).length)) false
      have heq : 1 + (rest.takeWhile (fun b => !b)).length +
          (k - (1 + (rest.takeWhile (fun b => !b)).length)) = k := by omega
      rw [heq] at hr2
      rw [← hd] at hr2
      rw [← hr2]
      congr 1
      exact decide_eq_decide.mpr (promotedSuf_false_run_ge prev rest r k hcase).symm

/-- Claim C5: for `max_run > 0`, run absorption keeps the mask length and
sets position `k` exactly when it was already kept or lies in a maximal
run of unkept columns of length ≤ `max_run` bounded by kept columns on
both sides (runs touching either end are never promoted: `promotedAt`
requires an in-range `True` neighbour on each side); in particular
`[T,F,F,T]` with `max_run = 2` becomes all-`T` and with `max_run = 1` is
unchanged. -/
theorem claim5_run_absorption (mask : List Bool) (max_run : Int) (h : 0 < max_run) :
    ((_allow_short_nonconserved_runs mask max_run).length = mask.length ∧
      ∀ k, k < mask.length →
        (_allow_short_nonconserved_runs mask max_run).getD k false =
          (mask.getD k false || decide (promotedAt mask max_run k))) ∧
    _allow_short_nonconserved_runs [true, false, false, true] 2 = [true, true, true, true] ∧
    _allow_short_nonconserved_runs [true, false, false, true] 1 = [true, false, false, true] := by
  have hne : ¬ max_run ≤ 0 := by omega
  refine ⟨⟨?_, ?_⟩, ?_, ?_⟩
  · rw [_allow_short_nonconserved_runs, if_neg hne]
    exact absorbGo_length max_run false mask
  · intro k _
    rw [_allow_short_nonconserved_runs, if_neg hne]
    exact absorbGo_getD max_run false mask k
  · norm_num [_allow_short_nonconserved_runs, absorbGo, List.replicate]
  · norm_num [_allow_short_nonconserved_runs, absorbGo, List.replicate]

/-- Witness for `claim5_run_absorption` at the mask `[T,F,F,T]`. -/
theorem claim5_run_absorption_witness :
    (0 : Int) < 2 ∧
    (((_allow_short_nonconserved_runs [true, false, false, true] 2).length =
        ([true, false, false, true] : List Bool).length ∧
      ∀ k, k < ([true, false, false, true] : List Bool).length →
        (_allow_short_nonconserved_runs [true, false, false, true] 2).getD k false =
          (([true, false, false, true] : List Bool).getD k false ||
            decide (promotedAt [true, false, false, true] 2 k))) ∧
    _allow_short_nonconserved_runs [true, false, false, true] 2 = [true, true, true, true] ∧
    _allow_short_nonconserved_runs [true, false, false, true] 1 = [true, false, false, true]) :=
  ⟨by decide, claim5_run_absorption [true, false, false, true] 2 (by decide)⟩

lemma foldr_max_le (l : List Nat) (B : Nat) (h : ∀ x ∈ l, x ≤ B) : l.foldr max 0 ≤ B := by
  induction l with
  | nil => simp
  | cons a l ih =>
    simp only [List.foldr_cons]
    exact max_le (h a (by simp)) (ih (fun x hx => h x (by simp [hx])))

lemma le_foldr_max (l : List Nat) (x : Nat) (hx : x ∈ l) : x ≤ l.foldr max 0 := by
  induction l with
  | nil => simp at hx
  | cons a l ih =>
    simp only [List.foldr_cons]
    rcases List.mem_cons.mp hx with h | h
    · subst h; exact le_max_left _ _
    · exact le_trans (ih h) (le_max_right _ _)

lemma foldr_max_mem (l : List Nat) (h : l ≠ []) : l.foldr max 0 ∈ l := by
  induction l with
  | nil => exact absurd rfl h
  | cons a l ih =>
    cases l with
    | nil => simp
    | cons b t =>
      rcases max_choice a (List.foldr max 0 (b :: t)) with hm | hm
      · rw [List.foldr_cons, hm]; exact List.mem_cons_self _ _
      · rw [List.foldr_cons, hm]
        exact List.mem_cons_of_mem _ (ih (by simp))

/-- Claim C6: for a non-empty equal-length matrix, `column_metrics` has one
entry per column, all ratios lie in `[0,1]`, the gap ratio is the number
of gap entries over the number of sequences, and the conservation ratio is
`0` for an all-gap column and otherwise the count of a most frequent
non-gap residue over the number of non-gap residues. -/
theorem claim6_column_metrics (seqs : List (List Char)) (hne : seqs ≠ [])
    (hlen : ∀ s ∈ seqs, s.length = (seqs.headD []).length) :
    (column_metrics seqs).length = (seqs.headD []).length ∧
    ∀ i, i < (seqs.headD []).length →
      ((column_metrics seqs).getD i ⟨0, 0⟩ = metAt seqs i ∧
       0 ≤ (metAt seqs i).gap_ratio ∧ (metAt seqs i).gap_ratio ≤ 1 ∧
       0 ≤ (metAt seqs i).cons_ratio ∧ (metAt seqs i).cons_ratio ≤ 1 ∧
       (metAt seqs i).gap_ratio =
         (((seqs.map (fun s => s.getD i '-')).countP (fun c => c = '-') : Nat) : ℚ) /
           ((seqs.length : Nat) : ℚ) ∧
       ((∀ s ∈ seqs, s.getD i '-' = '-') → (metAt seqs i).cons_ratio = 0) ∧
       (¬ (∀ s ∈ seqs, s.getD i '-' = '-') →
         ∃ c ∈ (seqs.map (fun s => s.getD i '-')).filter (fun c => c ≠ '-'),
           (metAt seqs i).cons_ratio =
             ((((seqs.map (fun s => s.getD i '-')).filter (fun c => c ≠ '-')).count c :
               Nat) : ℚ) /
               ((((seqs.map (fun s => s.getD i '-')).filter (fun c => c ≠ '-')).length :
                 Nat) : ℚ) ∧
           ∀ d ∈ (seqs.map (fun s => s.getD i '-')).filter (fun c => c ≠ '-'),
             ((seqs.map (fun s => s.getD i '-')).filter (fun c => c ≠ '-')).count d ≤
               ((seqs.map (fun s => s.getD i '-')).filter (fun c => c ≠ '-')).count c)) := by
  have hn : 0 < seqs.length := List.length_pos.mpr hne
  constructor
  · simp [column_metrics]
  intro i hi
  set col := seqs.map (fun s => s.getD i '-') with hcol
  set non := col.filter (fun c => c ≠ '-') with hnon
  have hcollen : col.length = seqs.length := by rw [hcol, List.length_map]
  have hget : (column_metrics seqs).getD i ⟨0, 0⟩ = metAt seqs i := by
    rw [column_metrics, List.getD_eq_getElem _ _ (by simpa using hi),
      List.getElem_map, List.getElem_range]
  have hgap : (metAt seqs i).gap_ratio = ((col.countP (fun c => c = '-') : Nat) : ℚ) /
      ((seqs.length : Nat) : ℚ) := rfl
  have hcons : (metAt seqs i).cons_ratio =
      if non = [] then (0 : ℚ)
      else (((non.map (fun c => non.count c)).foldr max 0 : Nat) : ℚ) /
        ((non.length : Nat) : ℚ) := rfl
  refine ⟨hget, ?_, ?_, ?_, ?_, hgap, ?_, ?_⟩
  · rw [hgap]
    apply div_nonneg <;> exact Nat.cast_nonneg _
  · rw [hgap]
    rw [div_le_one (by exact_mod_cast hn)]
    exact_mod_cast (hcollen ▸ List.countP_le_length _)
  · rw [hcons]
    split
    · exact le_refl 0
    · apply div_nonneg <;> exact Nat.cast_nonneg _
  · rw [hcons]
    split
    · exact zero_le_one
    · rename_i hnonne
      have hlenpos : 0 < non.length :=
        List.length_pos.mpr hnonne
      rw [div_le_one (by exact_mod_cast hlenpos)]
      have : (non.map (fun c => non.count c)).foldr max 0 ≤ non.length := by
        apply foldr_max_le
        intro x hx
        obtain ⟨c, _, hc⟩ := List.mem_map.mp hx
        rw [← hc]
        exact List.count_le_length _ _
      exact_mod_cast this
  · intro hall
    have hnonnil : non = [] := by
      rw [hnon]
      apply List.filter_eq_nil_iff.mpr
      intro a ha
      obtain ⟨s, hs, hsa⟩ := List.mem_map.mp ha
      rw [← hsa]
      have hgapa := hall s hs
      simp
      simpa using hgapa
    rw [hcons, if_pos hnonnil]
  · intro hnall
    push_neg at hnall
    obtain ⟨s, hs, hsne⟩ := hnall
    have hmem : s.getD i '-' ∈ non := by
      rw [hnon]
      apply List.mem_filter.mpr
      exact ⟨List.mem_map.mpr ⟨s, hs, rfl⟩, by simpa using hsne⟩
    have hnonne : non ≠ [] := fun h => by rw [h] at hmem; simp at hmem
    have hmapne : non.map (fun c => non.count c) ≠ [] := by
      simpa using hnonne
    obtain ⟨c, hcmem, hc⟩ :=
      List.mem_map.mp (foldr_max_mem (non.map (fun c => non.count c)) hmapne)
    refine ⟨c, hcmem, ?_, ?_⟩
    · rw [hcons, if_neg hnonne, hc]
    · intro d hd
      rw [hc]
      exact le_foldr_max _ _ (List.mem_map.mpr ⟨d, hd, rfl⟩)

/-- Witness for `claim6_column_metrics` at the worked-example matrix. -/
theorem claim6_column_metrics_witness :
    (c3seqs ≠ [] ∧ ∀ s ∈ c3seqs, s.length = (c3seqs.headD []).length) ∧
    ((column_metrics c3seqs).length = (c3seqs.headD []).length ∧
    ∀ i, i < (c3seqs.headD []).length →
      ((column_metrics c3seqs).getD i ⟨0, 0⟩ = metAt c3seqs i ∧
       0 ≤ (metAt c3seqs i).gap_ratio ∧ (metAt c3seqs i).gap_ratio ≤ 1 ∧
       0 ≤ (metAt c3seqs i).cons_ratio ∧ (metAt c3seqs i).cons_ratio ≤ 1 ∧
       (metAt c3seqs i).gap_ratio =
         (((c3seqs.map (fun s => s.getD i '-')).countP (fun c => c = '-') : Nat) : ℚ) /
           ((c3seqs.length : Nat) : ℚ) ∧
       ((∀ s ∈ c3seqs, s.getD i '-' = '-') → (metAt c3seqs i).cons_ratio = 0) ∧
       (¬ (∀ s ∈ c3seqs, s.getD i '-' = '-') →
         ∃ c ∈ (c3seqs.map (fun s => s.getD i '-')).filter (fun c => c ≠ '-'),
           (metAt c3seqs i).cons_ratio =
             ((((c3seqs.map (fun s => s.getD i '-')).filter (fun c => c ≠ '-')).count c :
               Nat) : ℚ) /
               ((((c3seqs.map (fun s => s.getD i '-')).filter (fun c => c ≠ '-')).length :
                 Nat) : ℚ) ∧
           ∀ d ∈ (c3seqs.map (fun s => s.getD i '-')).filter (fun c => c ≠ '-'),
             ((c3seqs.map (fun s => s.getD i '-')).filter (fun c => c ≠ '-')).count d ≤
               ((c3seqs.map (fun s => s.getD i '-')).filter (fun c => c ≠ '-')).count c))) :=
  ⟨⟨by decide, by decide⟩, claim6_column_metrics c3seqs (by decide) (by decide)⟩

lemma gblock_filter_of_blocks_nil (entries : List (String × List Char)) (mbl : Int)
    (mg mc : ℚ) (fc : Option ℚ) (dagc : Bool) (mnr : Int)
    (heq : all_equal_length entries = true)
    (hblocks : gblock_blocks (entries.map (fun e => e.2)) mbl mg mc fc mnr = []) :
    gblock_filter entries mbl mg mc fc dagc mnr =
      .ok (entries.map (fun e => (e.1, ([] : List Char)))) := by
  simp only [gblock_filter, heq, hblocks]
  rfl

lemma gblock_filter_of_blocks_ne (entries : List (String × List Char)) (mbl : Int)
    (mg mc : ℚ) (fc : Option ℚ) (dagc : Bool) (mnr : Int)
    (heq : all_equal_length entries = true)
    (hblocks : gblock_blocks (entries.map (fun e => e.2)) mbl mg mc fc mnr ≠ []) :
    gblock_filter entries mbl mg mc fc dagc mnr =
      .ok (entries.map (fun e =>
        (e.1, (gblock_keep (entries.map (fun e => e.2)) mbl mg mc fc dagc mnr).map
          (fun i => e.2.getD i '-')))) := by
  simp only [gblock_filter, heq]
  rw [if_neg (by simp), if_neg hblocks]

lemma dedup_replicate_succ (n : Nat) (a : Nat) : (List.replicate (n + 1) a).dedup = [a] := by
  induction n with
  | zero => rfl
  | succ m ih =>
    rw [List.replicate_succ,
      List.dedup_cons_of_mem (List.mem_replicate.mpr ⟨by omega, rfl⟩)]
    exact ih

lemma all_equal_length_of_const (out : List (String × List Char)) (k : Nat) (hne : out ≠ [])
    (h : ∀ p ∈ out, p.2.length = k) : all_equal_length out = true := by
  rw [all_equal_length]
  have hmap : out.map (fun e => e.2.length) = List.replicate out.length k := by
    rw [List.eq_replicate]
    exact ⟨by simp, fun b hb => by
      obtain ⟨p, hp, hpb⟩ := List.mem_map.mp hb
      rw [← hpb]; exact h p hp⟩
  rw [hmap]
  obtain ⟨m, hm⟩ : ∃ m, out.length = m + 1 := by
    cases out with
    | nil => exact absurd rfl hne
    | cons a l => exact ⟨l.length, by simp⟩
  rw [hm, dedup_replicate_succ]
  simp

/-- Claim C8: when no blocks survive extraction and trimming,
`gblock_filter` succeeds with every input label paired with an empty
residue string (no error). -/
theorem claim8_no_blocks_empty_success (entries : List (String × List Char)) (mbl : Int)
    (mg mc : ℚ) (fc : Option ℚ) (dagc : Bool) (mnr : Int)
    (heq : all_equal_length entries = true)
    (hblocks : gblock_blocks (entries.map (fun e => e.2)) mbl mg mc fc mnr = []) :
    gblock_filter entries mbl mg mc fc dagc mnr =
      .ok (entries.map (fun e => (e.1, ([] : List Char)))) :=
  gblock_filter_of_blocks_nil entries mbl mg mc fc dagc mnr heq hblocks

lemma c8wit_mets : column_metrics [['A']] = [⟨0, 1⟩] := by
  simp only [column_metrics]
  rw [show List.range (([['A']] : List (List Char)).headD []).length = [0] from rfl]
  simp [metAt]

lemma c8wit_blocks : gblock_blocks [['A']] 2 (1/2) (7/10) none 0 = [] := by
  simp only [gblock_blocks, gblock_mask, c8wit_mets]
  have hb : base_mask [⟨0, 1⟩] (1/2) (7/10) = [true] := by norm_num [base_mask]
  rw [hb]
  rfl

/-- Witness for `claim8_no_blocks_empty_success`: one sequence `A` with
`min_block_len = 2`, where the only kept run is too short. -/
theorem claim8_no_blocks_empty_success_witness :
    (all_equal_length [("a", ['A'])] = true ∧
      gblock_blocks ([("a", ['A'])].map (fun e => e.2)) 2 (1/2) (7/10) none 0 = []) ∧
    gblock_filter [("a", ['A'])] 2 (1/2) (7/10) none false 0 =
      .ok ([("a", ['A'])].map (fun e => (e.1, ([] : List Char)))) :=
  ⟨⟨by decide, c8wit_blocks⟩,
    claim8_no_blocks_empty_success [("a", ['A'])] 2 (1/2) (7/10) none false 0
      (by decide) c8wit_blocks⟩

/-- Claim C10: on any equal-length input, `gblock_filter` succeeds and its
output has the same labels in the same order as the input (hence the same
number of entries) and all output residue strings share one length: the
output is itself an equal-length alignment matrix. -/
theorem claim10_filter_invariants (entries : List (String × List Char)) (mbl : Int)
    (mg mc : ℚ) (fc : Option ℚ) (dagc : Bool) (mnr : Int)
    (heq : all_equal_length entries = true) :
    ∃ out, gblock_filter entries mbl mg mc fc dagc mnr = .ok out ∧
      out.map (fun e => e.1) = entries.map (fun e => e.1) ∧
      out.length = entries.length ∧
      (∃ k, ∀ p ∈ out, p.2.length = k) ∧
      all_equal_length out = true := by
  have hne : entries ≠ [] := by
    intro h
    subst h
    simp [all_equal_length] at heq
  by_cases hb : gblock_blocks (entries.map (fun e => e.2)) mbl mg mc fc mnr = []
  · refine ⟨entries.map (fun e => (e.1, ([] : List Char))),
      gblock_filter_of_blocks_nil entries mbl mg mc fc dagc mnr heq hb, ?_, by simp, ?_, ?_⟩
    · rw [List.map_map]
      rfl
    · refine ⟨0, fun p hp => ?_⟩
      obtain ⟨e, _, hep⟩ := List.mem_map.mp hp
      rw [← hep]
      rfl
    · apply all_equal_length_of_const _ 0 (by simpa using hne)
      intro p hp
      obtain ⟨e, _, hep⟩ := List.mem_map.mp hp
      rw [← hep]
      rfl
  · refine ⟨_, gblock_filter_of_blocks_ne entries mbl mg mc fc dagc mnr heq hb, ?_, by simp,
      ?_, ?_⟩
    · rw [List.map_map]
      rfl
    · refine ⟨(gblock_keep (entries.map (fun e => e.2)) mbl mg mc fc dagc mnr).length,
        fun p hp => ?_⟩
      obtain ⟨e, _, hep⟩ := List.mem_map.mp hp
      rw [← hep]
      simp
    · apply all_equal_length_of_const _
        (gblock_keep (entries.map (fun e => e.2)) mbl mg mc fc dagc mnr).length
        (by simpa using hne)
      intro p hp
      obtain ⟨e, _, hep⟩ := List.mem_map.mp hp
      rw [← hep]
      simp

/-- Witness for `claim10_filter_invariants` at the worked example. -/
theorem claim10_filter_invariants_witness :
    all_equal_length c3entries = true ∧
    ∃ out, gblock_filter c3entries 3 (34/100) (67/100) none false 0 = .ok out ∧
      out.map (fun e => e.1) = c3entries.map (fun e => e.1) ∧
      out.length = c3entries.length ∧
      (∃ k, ∀ p ∈ out, p.2.length = k) ∧
      all_equal_length out = true :=
  ⟨by decide, claim10_filter_invariants c3entries 3 (34/100) (67/100) none false 0 (by decide)⟩

lemma take_succ_getD (l : List Char) (n : Nat) (d : Char) (h : n < l.length) :
    l.take (n + 1) = l.take n ++ [l.getD n d] := by
  rw [List.take_succ]
  congr 1
  rw [List.getD_eq_getElem _ _ h]
  simp [List.getElem?_eq_getElem h]

lemma nwCell_trace_interior (a b : List Char) (mt mm gp : Int) (i j : Nat) :
    (nwCell a b mt mm gp (i+1) (j+1)).2 = 1 ∨ (nwCell a b mt mm gp (i+1) (j+1)).2 = 2 ∨
      (nwCell a b mt mm gp (i+1) (j+1)).2 = 3 := by
  show (nwRowFun b mt mm gp (a.getD i ' ') (i+1) (nwCell a b mt mm gp i) (j+1)).2 = 1 ∨
    (nwRowFun b mt mm gp (a.getD i ' ') (i+1) (nwCell a b mt mm gp i) (j+1)).2 = 2 ∨
    (nwRowFun b mt mm gp (a.getD i ' ') (i+1) (nwCell a b mt mm gp i) (j+1)).2 = 3
  simp only [nwRowFun]
  split_ifs <;> simp

lemma tracebackGo_spec (a b : List Char) (mt mm gp : Int) :
    ∀ (fuel i j : Nat), i ≤ a.length → j ≤ b.length → i + j ≤ fuel →
      ((tracebackGo a b (nwCell a b mt mm gp) fuel i j).1.length =
        (tracebackGo a b (nwCell a b mt mm gp) fuel i j).2.length) ∧
      ((tracebackGo a b (nwCell a b mt mm gp) fuel i j).1.filter (fun c => c ≠ '-') =
        (a.take i).filter (fun c => c ≠ '-')) ∧
      ((tracebackGo a b (nwCell a b mt mm gp) fuel i j).2.filter (fun c => c ≠ '-') =
        (b.take j).filter (fun c => c ≠ '-')) := by
  intro fuel
  induction fuel with
  | zero =>
    intro i j hi hj hf
    have hi0 : i = 0 := by omega
    have hj0 : j = 0 := by omega
    subst hi0; subst hj0
    exact ⟨rfl, rfl, rfl⟩
  | succ fuel ih =>
    intro i j hi hj hf
    match i, j with
    | 0, 0 =>
      rw [tracebackGo, if_pos ⟨rfl, rfl⟩]
      exact ⟨rfl, rfl, rfl⟩
    | 0, j'+1 =>
      rw [tracebackGo, if_neg (by simp)]
      have ht : (nwCell a b mt mm gp 0 (j'+1)).2 = 3 := rfl
      rw [ht, if_neg (by decide), if_neg (by decide)]
      simp only [Nat.add_sub_cancel]
      obtain ⟨ihlen, ih1, ih2⟩ := ih 0 j' (by omega) (by omega) (by omega)
      refine ⟨by simp [ihlen], ?_, ?_⟩
      · rw [List.filter_append, ih1,
          show List.filter (fun c => decide (c ≠ '-')) ['-'] = ([] : List Char) from rfl,
          List.append_nil]
      · rw [List.filter_append, ih2, take_succ_getD b j' ' ' (by omega), List.filter_append]
    | i'+1, 0 =>
      rw [tracebackGo, if_neg (by simp)]
      have ht : (nwCell a b mt mm gp (i'+1) 0).2 = 2 := rfl
      rw [ht, if_neg (by decide), if_pos rfl]
      simp only [Nat.add_sub_cancel]
      obtain ⟨ihlen, ih1, ih2⟩ := ih i' 0 (by omega) (by omega) (by omega)
      refine ⟨by simp [ihlen], ?_, ?_⟩
      · rw [List.filter_append, ih1, take_succ_getD a i' ' ' (by omega), List.filter_append]
      · rw [List.filter_append, ih2,
          show List.filter (fun c => decide (c ≠ '-')) ['-'] = ([] : List Char) from rfl,
          List.append_nil]
    | i'+1, j'+1 =>
      rw [tracebackGo, if_neg (by simp)]
      rcases nwCell_trace_interior a b mt mm gp i' j' with ht | ht | ht
      · rw [ht, if_pos rfl]
        simp only [Nat.add_sub_cancel]
        obtain ⟨ihlen, ih1, ih2⟩ := ih i' j' (by omega) (by omega) (by omega)
        refine ⟨by simp [ihlen], ?_, ?_⟩
        · rw [List.filter_append, ih1, take_succ_getD a i' ' ' (by omega), List.filter_append]
        · rw [List.filter_append, ih2, take_succ_getD b j' ' ' (by omega), List.filter_append]
      · rw [ht, if_neg (by decide), if_pos rfl]
        simp only [Nat.add_sub_cancel]
        obtain ⟨ihlen, ih1, ih2⟩ := ih i' (j'+1) (by omega) (by omega) (by omega)
        refine ⟨by simp [ihlen], ?_, ?_⟩
        · rw [List.filter_append, ih1, take_succ_getD a i' ' ' (by omega), List.filter_append]
        · rw [List.filter_append, ih2,
            show List.filter (fun c => decide (c ≠ '-')) ['-'] = ([] : List Char) from rfl,
            List.append_nil]
      · rw [ht, if_neg (by decide), if_neg (by decide)]
        simp only [Nat.add_sub_cancel]
        obtain ⟨ihlen, ih1, ih2⟩ := ih (i'+1) j' (by omega) (by omega) (by omega)
        refine ⟨by simp [ihlen], ?_, ?_⟩
        · rw [List.filter_append, ih1,
            show List.filter (fun c => decide (c ≠ '-')) ['-'] = ([] : List Char) from rfl,
            List.append_nil]
        · rw [List.filter_append, ih2, take_succ_getD b j' ' ' (by omega), List.filter_append]

/-- Claim C4 is false as universally stated: if the input strings may
themselves contain `'-'`, removing all `'-'` from the traceback output does
not recover the input.  At `a = "-"`, `b = ""` the aligned first string is
`"-"`, which degaps to `""` ≠ `a`. -/
theorem claim4_counterexample :
    (nw_align ['-'] [] 1 (-1) (-2)).1.length = (nw_align ['-'] [] 1 (-1) (-2)).2.length ∧
    (nw_align ['-'] [] 1 (-1) (-2)).1.filter (fun c => c ≠ '-') ≠ ['-'] :=
  ⟨rfl, by decide⟩

/-- Claim C4 amended (restricted to gap-free inputs): `nw_align` builds the
`(n+1)×(m+1)` score/trace matrix with base row/column `i*gap` / `j*gap`,
the cell recurrence is the maximum of diagonal/up/left moves with ties
broken diagonal over up over left, and the traceback from `(n,m)` returns
two equal-length strings that equal `a` and `b` once all `'-'` are
removed. -/
theorem claim4_nw_align (a b : List Char) (mt mm gp : Int)
    (ha : '-' ∉ a) (hb : '-' ∉ b) :
    ((nw_align a b mt mm gp).1.length = (nw_align a b mt mm gp).2.length ∧
     (nw_align a b mt mm gp).1.filter (fun c => c ≠ '-') = a ∧
     (nw_align a b mt mm gp).2.filter (fun c => c ≠ '-') = b) ∧
    nwCell a b mt mm gp 0 0 = (0, 0) ∧
    (∀ j : Nat, nwCell a b mt mm gp 0 (j+1) = (((j : Int) + 1) * gp, 3)) ∧
    (∀ i : Nat, nwCell a b mt mm gp (i+1) 0 = ((((i+1 : Nat)) : Int) * gp, 2)) ∧
    (∀ i j : Nat, ∀ sd su sl : Int,
      sd = (nwCell a b mt mm gp i j).1 +
        (if a.getD i ' ' = b.getD j ' ' then mt else mm) →
      su = (nwCell a b mt mm gp i (j+1)).1 + gp →
      sl = (nwCell a b mt mm gp (i+1) j).1 + gp →
      ((nwCell a b mt mm gp (i+1) (j+1)).1 = max (max sd su) sl ∧
       ((nwCell a b mt mm gp (i+1) (j+1)).2 = 1 ↔ su ≤ sd ∧ sl ≤ sd) ∧
       ((nwCell a b mt mm gp (i+1) (j+1)).2 = 2 ↔ ¬(su ≤ sd ∧ sl ≤ sd) ∧ sl ≤ su) ∧
       ((nwCell a b mt mm gp (i+1) (j+1)).2 = 3 ↔ ¬(su ≤ sd ∧ sl ≤ sd) ∧ ¬ sl ≤ su))) := by
  refine ⟨?_, rfl, fun j => rfl, fun i => rfl, ?_⟩
  · obtain ⟨hlen, h1, h2⟩ := tracebackGo_spec a b mt mm gp (a.length + b.length)
      a.length b.length (le_refl _) (le_refl _) (le_refl _)
    refine ⟨hlen, ?_, ?_⟩
    · rw [show nw_align a b mt mm gp =
        tracebackGo a b (nwCell a b mt mm gp) (a.length + b.length) a.length b.length
        from rfl, h1, List.take_length]
      apply List.filter_eq_self.mpr
      intro c hc
      simp only [decide_eq_true_eq]
      intro hcd
      exact ha (hcd ▸ hc)
    · rw [show nw_align a b mt mm gp =
        tracebackGo a b (nwCell a b mt mm gp) (a.length + b.length) a.length b.length
        from rfl, h2, List.take_length]
      apply List.filter_eq_self.mpr
      intro c hc
      simp only [decide_eq_true_eq]
      intro hcd
      exact hb (hcd ▸ hc)
  · intro i j sd su sl hsd hsu hsl
    have hunf : nwCell a b mt mm gp (i+1) (j+1) =
        (if su ≤ sd ∧ sl ≤ sd then (sd, 1) else if sl ≤ su then (su, 2) else (sl, 3)) := by
      subst hsd; subst hsu; subst hsl
      rfl
    rw [hunf]
    refine ⟨by split_ifs <;> omega, ?_, ?_, ?_⟩ <;> split_ifs with h1 h2 <;> simp_all

/-- Witness for `claim4_nw_align` at `a = "AB"`, `b = "B"` with the default
scores. -/
theorem claim4_nw_align_witness :
    ('-' ∉ "AB".toList ∧ '-' ∉ "B".toList) ∧
    (((nw_align "AB".toList "B".toList 1 (-1) (-2)).1.length =
        (nw_align "AB".toList "B".toList 1 (-1) (-2)).2.length ∧
      (nw_align "AB".toList "B".toList 1 (-1) (-2)).1.filter (fun c => c ≠ '-') =
        "AB".toList ∧
      (nw_align "AB".toList "B".toList 1 (-1) (-2)).2.filter (fun c => c ≠ '-') =
        "B".toList) ∧
    nwCell "AB".toList "B".toList 1 (-1) (-2) 0 0 = (0, 0) ∧
    (∀ j : Nat, nwCell "AB".toList "B".toList 1 (-1) (-2) 0 (j+1) =
      (((j : Int) + 1) * (-2), 3)) ∧
    (∀ i : Nat, nwCell "AB".toList "B".toList 1 (-1) (-2) (i+1) 0 =
      ((((i+1 : Nat)) : Int) * (-2), 2)) ∧
    (∀ i j : Nat, ∀ sd su sl : Int,
      sd = (nwCell "AB".toList "B".toList 1 (-1) (-2) i j).1 +
        (if ("AB".toList).getD i ' ' = ("B".toList).getD j ' ' then 1 else (-1)) →
      su = (nwCell "AB".toList "B".toList 1 (-1) (-2) i (j+1)).1 + (-2) →
      sl = (nwCell "AB".toList "B".toList 1 (-1) (-2) (i+1) j).1 + (-2) →
      ((nwCell "AB".toList "B".toList 1 (-1) (-2) (i+1) (j+1)).1 = max (max sd su) sl ∧
       ((nwCell "AB".toList "B".toList 1 (-1) (-2) (i+1) (j+1)).2 = 1 ↔
         su ≤ sd ∧ sl ≤ sd) ∧
       ((nwCell "AB".toList "B".toList 1 (-1) (-2) (i+1) (j+1)).2 = 2 ↔
         ¬(su ≤ sd ∧ sl ≤ sd) ∧ sl ≤ su) ∧
       ((nwCell "AB".toList "B".toList 1 (-1) (-2) (i+1) (j+1)).2 = 3 ↔
         ¬(su ≤ sd ∧ sl ≤ sd) ∧ ¬ sl ≤ su)))) :=
  ⟨⟨by decide, by decide⟩, claim4_nw_align "AB".toList "B".toList 1 (-1) (-2)
    (by decide) (by decide)⟩

lemma pyStrip_nil : pyStrip [] = [] := rfl

lemma parseGo_nil_none (buf : List (List Char)) : parseGo none buf [] = [] := rfl

lemma parseGo_nil_some (hh : List Char) (buf : List (List Char)) :
    parseGo (some hh) buf [] = [(hh, buf.flatten)] := rfl

lemma parseGo_cons (h : Option (List Char)) (buf : List (List Char)) (raw : List Char)
    (rest : List (List Char)) :
    parseGo h buf (raw :: rest) =
      (if pyStrip raw = [] then parseGo h buf rest
       else if (pyStrip raw).headD ' ' = '>' then
         (match h with
          | none => []
          | some hh => [(hh, buf.flatten)]) ++
           parseGo (some (if pyStrip ((pyStrip raw).drop 1) = [] then "unnamed".toList
             else pyStrip ((pyStrip raw).drop 1))) [] rest
       else parseGo h (buf ++ [pyStrip raw]) rest) := rfl

lemma pyStrip_prefix (s : List Char) : pyStrip s <+: s.dropWhile py_isspace := by
  rw [pyStrip]
  have hsuf : (s.dropWhile py_isspace).reverse.dropWhile py_isspace <:+
      (s.dropWhile py_isspace).reverse := List.dropWhile_suffix _
  have := List.reverse_prefix.mpr hsuf
  simpa using this

lemma pyStrip_head (s : List Char) (hne : pyStrip s ≠ []) :
    py_isspace ((pyStrip s).headD ' ') = false := by
  obtain ⟨c, t, hct⟩ := List.exists_cons_of_ne_nil hne
  obtain ⟨rest, happ⟩ := pyStrip_prefix s
  rw [hct] at happ
  have hdw : s.dropWhile py_isspace = c :: (t ++ rest) := by
    rw [← happ]; rfl
  have := List.head?_dropWhile_not py_isspace s
  rw [hdw] at this
  simp only [List.head?_cons] at this
  rw [hct]
  simpa using this

lemma pyStrip_last (s : List Char) (hne : pyStrip s ≠ []) :
    py_isspace ((pyStrip s).reverse.headD ' ') = false := by
  have hrev : (pyStrip s).reverse = (s.dropWhile py_isspace).reverse.dropWhile py_isspace := by
    rw [pyStrip, List.reverse_reverse]
  have hrne : (pyStrip s).reverse ≠ [] := by
    intro h
    exact hne (by simpa using congrArg List.reverse h)
  obtain ⟨c, t, hct⟩ := List.exists_cons_of_ne_nil hrne
  have := List.head?_dropWhile_not py_isspace (s.dropWhile py_isspace).reverse
  rw [← hrev, hct] at this
  simp only [List.head?_cons] at this
  rw [hct]
  simpa using this

lemma dropWhile_eq_self_of_head (p : Char → Bool) (s : List Char)
    (h : s = [] ∨ p (s.headD ' ') = false) : s.dropWhile p = s := by
  cases s with
  | nil => rfl
  | cons c t =>
    rcases h with h | h
    · exact absurd h (by simp)
    · simp only [List.headD_cons] at h
      rw [List.dropWhile_cons, h]
      simp

lemma pyStrip_of_head_last (s : List Char)
    (hh : py_isspace (s.headD ' ') = false)
    (hl : py_isspace (s.reverse.headD ' ') = false) : pyStrip s = s := by
  rw [pyStrip, dropWhile_eq_self_of_head _ s (Or.inr hh),
    dropWhile_eq_self_of_head _ s.reverse (Or.inr hl), List.reverse_reverse]

lemma pyStrip_idem (s : List Char) : pyStrip (pyStrip s) = pyStrip s := by
  by_cases hne : pyStrip s = []
  · rw [hne]; exact pyStrip_nil
  · exact pyStrip_of_head_last _ (pyStrip_head s hne) (pyStrip_last s hne)

lemma pyStrip_eq_self_of_nospace (s : List Char)
    (h : ∀ c ∈ s, py_isspace c = false) : pyStrip s = s := by
  cases hs : s with
  | nil => rfl
  | cons c t =>
    apply pyStrip_of_head_last
    · simp only [List.headD_cons]
      exact h c (by rw [hs]; simp)
    · have hrne : (c :: t).reverse ≠ [] := by simp
      obtain ⟨d, u, hdu⟩ := List.exists_cons_of_ne_nil hrne
      rw [hdu]
      simp only [List.headD_cons]
      apply h
      rw [hs, ← List.mem_reverse, hdu]
      simp

lemma chunkList_flatten (w : Nat) (s : List Char) : (chunkList w s).flatten = s := by
  induction s using chunkList.induct w with
  | case1 => simp [chunkList]
  | case2 c rest ih =>
    rw [chunkList, List.flatten_cons, ih]
    simp [List.take_append_drop]

lemma chunkList_mem_ne_nil (w : Nat) (s : List Char) :
    ∀ ch ∈ chunkList w s, ch ≠ [] := by
  induction s using chunkList.induct w with
  | case1 => intro ch h; simp [chunkList] at h
  | case2 c rest ih =>
    intro ch h
    rw [chunkList] at h
    rcases List.mem_cons.mp h with h | h
    · subst h; simp
    · exact ih ch h

lemma chunkList_mem_sub (w : Nat) (s : List Char) :
    ∀ ch ∈ chunkList w s, ∀ c ∈ ch, c ∈ s := by
  induction s using chunkList.induct w with
  | case1 => intro ch h; simp [chunkList] at h
  | case2 c rest ih =>
    intro ch hch x hx
    rw [chunkList] at hch
    rcases List.mem_cons.mp hch with h | h
    · subst h
      rcases List.mem_cons.mp hx with h | h
      · subst h; simp
      · exact List.mem_cons_of_mem _ (List.mem_of_mem_take h)
    · exact List.mem_cons_of_mem _ (List.mem_of_mem_drop (ih ch h x hx))

lemma parseGo_labels (lines : List (List Char)) :
    ∀ (h : Option (List Char)) (buf : List (List Char)),
      (∀ hh, h = some hh → hh ≠ [] ∧ pyStrip hh = hh) →
      ∀ p ∈ parseGo h buf lines, p.1 ≠ [] ∧ pyStrip p.1 = p.1 := by
  induction lines with
  | nil =>
    intro h buf hgood p hp
    cases h with
    | none => simp [parseGo_nil_none] at hp
    | some hh =>
      simp only [parseGo_nil_some, List.mem_singleton] at hp
      rw [hp] at *
      exact hgood hh rfl
  | cons raw rest ih =>
    intro h buf hgood p hp
    rw [parseGo_cons] at hp
    by_cases hs : pyStrip raw = []
    · rw [if_pos hs] at hp
      exact ih h buf hgood p hp
    · rw [if_neg hs] at hp
      by_cases hhd : (pyStrip raw).headD ' ' = '>'
      · rw [if_pos hhd] at hp
        rcases List.mem_append.mp hp with hmem | hmem
        · cases h with
          | none => simp at hmem
          | some hh =>
            simp only [List.mem_singleton] at hmem
            rw [hmem] at *
            exact hgood hh rfl
        · apply ih _ [] _ p hmem
          intro hh hsome
          injection hsome with hsome
          rw [← hsome]
          by_cases ht : pyStrip ((pyStrip raw).drop 1) = []
          · rw [if_pos ht]
            constructor
            · decide
            · decide
          · rw [if_neg ht]
            exact ⟨ht, pyStrip_idem _⟩
      · rw [if_neg hhd] at hp
        exact ih h _ hgood p hp

lemma parseGo_chunks (hh : List Char) (chunks : List (List Char))
    (hch : ∀ ch ∈ chunks, ch ≠ [] ∧ (∀ c ∈ ch, py_isspace c = false) ∧ ch.headD ' ' ≠ '>') :
    ∀ (tail : List (List Char)) (buf : List (List Char)),
      parseGo (some hh) buf (chunks ++ tail) = parseGo (some hh) (buf ++ chunks) tail := by
  induction chunks with
  | nil => intro tail buf; simp
  | cons ch chs ih =>
    intro tail buf
    obtain ⟨hne, hns, hhd⟩ := hch ch (by simp)
    have hstrip : pyStrip ch = ch := pyStrip_eq_self_of_nospace ch hns
    rw [List.cons_append, parseGo_cons, hstrip, if_neg hne, if_neg hhd]
    rw [ih (fun c hc => hch c (by simp [hc])) tail (buf ++ [ch])]
    congr 1
    simp

lemma parseGo_write (w : Int) :
    ∀ (entries : List (List Char × List Char)),
      (∀ p ∈ entries, (p.1 ≠ [] ∧ pyStrip p.1 = p.1) ∧
        ∀ c ∈ p.2, c ≠ '>' ∧ py_isspace c = false) →
      ∀ (hh : List Char) (buf : List (List Char)), hh ≠ [] → pyStrip hh = hh →
        parseGo (some hh) buf (write_fasta entries w) = (hh, buf.flatten) :: entries := by
  intro entries
  induction entries with
  | nil =>
    intro _ hh buf _ _
    rw [show write_fasta [] w = [] from rfl, parseGo_nil_some]
  | cons e es ih =>
    intro hgood hh buf hhne hhst
    obtain ⟨⟨hene, hest⟩, hseq⟩ := hgood e (by simp)
    have hlast : py_isspace (e.1.reverse.headD ' ') = false := by
      have := pyStrip_last e.1 (by rw [hest]; exact hene)
      rwa [hest] at this
    have hline : pyStrip ('>' :: e.1) = '>' :: e.1 := by
      apply pyStrip_of_head_last
      · rw [List.headD_cons]
        decide
      · rw [List.reverse_cons]
        obtain ⟨d, u, hdu⟩ := List.exists_cons_of_ne_nil
          (show e.1.reverse ≠ [] by simpa using hene)
        rw [hdu, List.cons_append, List.headD_cons]
        have hl2 := hlast
        rw [hdu, List.headD_cons] at hl2
        exact hl2
    have hwr : write_fasta (e :: es) w =
        ('>' :: e.1) :: ((if 0 < w then chunkList w.toNat e.2 else [e.2]) ++
          write_fasta es w) := by
      rw [write_fasta, List.flatMap_cons, write_fasta, List.cons_append]
    rw [hwr, parseGo_cons, hline, if_neg (by simp), if_pos (by simp)]
    have hdrop : pyStrip (('>' :: e.1).drop 1) = e.1 := by
      rw [show ('>' :: e.1).drop 1 = e.1 from rfl]
      exact hest
    rw [hdrop, if_neg hene]
    have hes : ∀ p ∈ es, (p.1 ≠ [] ∧ pyStrip p.1 = p.1) ∧
        ∀ c ∈ p.2, c ≠ '>' ∧ py_isspace c = false :=
      fun p hp => hgood p (by simp [hp])
    by_cases hw : 0 < w
    · rw [if_pos hw]
      have hch : ∀ ch ∈ chunkList w.toNat e.2, ch ≠ [] ∧
          (∀ c ∈ ch, py_isspace c = false) ∧ ch.headD ' ' ≠ '>' := by
        intro ch hch
        have hne := chunkList_mem_ne_nil w.toNat e.2 ch hch
        have hsub := chunkList_mem_sub w.toNat e.2 ch hch
        refine ⟨hne, fun c hc => (hseq c (hsub c hc)).2, ?_⟩
        obtain ⟨c, t, hct⟩ := List.exists_cons_of_ne_nil hne
        rw [hct]
        simp only [List.headD_cons]
        exact (hseq c (hsub c (by rw [hct]; simp))).1
      rw [parseGo_chunks e.1 (chunkList w.toNat e.2) hch (write_fasta es w) []]
      rw [List.nil_append]
      rw [ih hes e.1 (chunkList w.toNat e.2) hene hest]
      simp [chunkList_flatten]
    · rw [if_neg hw]
      by_cases h2 : e.2 = []
      · rw [h2]
        rw [show ([([] : List Char)] ++ write_fasta es w) =
          ([] : List Char) :: write_fasta es w from rfl]
        rw [parseGo_cons, if_pos pyStrip_nil]
        rw [ih hes e.1 [] hene hest]
        have he : (e.1, ([] : List Char)) = e := by rw [← h2]
        simp [he]
      · have hch : ∀ ch ∈ [e.2], ch ≠ [] ∧
            (∀ c ∈ ch, py_isspace c = false) ∧ ch.headD ' ' ≠ '>' := by
          intro ch hch
          simp only [List.mem_singleton] at hch
          subst hch
          refine ⟨h2, fun c hc => (hseq c hc).2, ?_⟩
          obtain ⟨c, t, hct⟩ := List.exists_cons_of_ne_nil h2
          rw [hct]
          simp only [List.headD_cons]
          exact (hseq c (by rw [hct]; simp)).1
        rw [parseGo_chunks e.1 [e.2] hch (write_fasta es w) []]
        rw [List.nil_append]
        rw [ih hes e.1 [e.2] hene hest]
        simp

lemma parseGo_write_none (w : Int) (entries : List (List Char × List Char))
    (hgood : ∀ p ∈ entries, (p.1 ≠ [] ∧ pyStrip p.1 = p.1) ∧
      ∀ c ∈ p.2, c ≠ '>' ∧ py_isspace c = false)
    (hne : entries ≠ []) :
    parseGo none [] (write_fasta entries w) = entries := by
  obtain ⟨e, es, hee⟩ := List.exists_cons_of_ne_nil hne
  subst hee
  obtain ⟨⟨hene, hest⟩, hseq⟩ := hgood e (by simp)
  have hlast : py_isspace (e.1.reverse.headD ' ') = false := by
    have := pyStrip_last e.1 (by rw [hest]; exact hene)
    rwa [hest] at this
  have hline : pyStrip ('>' :: e.1) = '>' :: e.1 := by
    apply pyStrip_of_head_last
    · rw [List.headD_cons]
      decide
    · rw [List.reverse_cons]
      obtain ⟨d, u, hdu⟩ := List.exists_cons_of_ne_nil
        (show e.1.reverse ≠ [] by simpa using hene)
      rw [hdu, List.cons_append, List.headD_cons]
      have hl2 := hlast
      rw [hdu, List.headD_cons] at hl2
      exact hl2
  have hwr : write_fasta (e :: es) w =
      ('>' :: e.1) :: ((if 0 < w then chunkList w.toNat e.2 else [e.2]) ++
        write_fasta es w) := by
    rw [write_fasta, List.flatMap_cons, write_fasta, List.cons_append]
  rw [hwr, parseGo_cons, hline, if_neg (by simp), if_pos (by simp)]
  have hdrop : pyStrip (('>' :: e.1).drop 1) = e.1 := by
    rw [show ('>' :: e.1).drop 1 = e.1 from rfl]
    exact hest
  rw [hdrop, if_neg hene]
  have hes : ∀ p ∈ es, (p.1 ≠ [] ∧ pyStrip p.1 = p.1) ∧
      ∀ c ∈ p.2, c ≠ '>' ∧ py_isspace c = false :=
    fun p hp => hgood p (by simp [hp])
  by_cases hw : 0 < w
  · rw [if_pos hw]
    have hch : ∀ ch ∈ chunkList w.toNat e.2, ch ≠ [] ∧
        (∀ c ∈ ch, py_isspace c = false) ∧ ch.headD ' ' ≠ '>' := by
      intro ch hch
      have hne2 := chunkList_mem_ne_nil w.toNat e.2 ch hch
      have hsub := chunkList_mem_sub w.toNat e.2 ch hch
      refine ⟨hne2, fun c hc => (hseq c (hsub c hc)).2, ?_⟩
      obtain ⟨c, t, hct⟩ := List.exists_cons_of_ne_nil hne2
      rw [hct]
      simp only [List.headD_cons]
      exact (hseq c (hsub c (by rw [hct]; simp))).1
    rw [parseGo_chunks e.1 (chunkList w.toNat e.2) hch (write_fasta es w) []]
    simp only [List.nil_append]
    rw [parseGo_write w es hes e.1 (chunkList w.toNat e.2) hene hest]
    simp [chunkList_flatten]
  · rw [if_neg hw]
    by_cases h2 : e.2 = []
    · rw [h2]
      rw [show ([([] : List Char)] ++ write_fasta es w) =
        ([] : List Char) :: write_fasta es w from rfl]
      rw [parseGo_cons, if_pos pyStrip_nil]
      rw [parseGo_write w es hes e.1 [] hene hest]
      have he : (e.1, ([] : List Char)) = e := by rw [← h2]
      simp [he]
    · have hch : ∀ ch ∈ [e.2], ch ≠ [] ∧
          (∀ c ∈ ch, py_isspace c = false) ∧ ch.headD ' ' ≠ '>' := by
        intro ch hch
        simp only [List.mem_singleton] at hch
        subst hch
        refine ⟨h2, fun c hc => (hseq c hc).2, ?_⟩
        obtain ⟨c, t, hct⟩ := List.exists_cons_of_ne_nil h2
        rw [hct]
        simp only [List.headD_cons]
        exact (hseq c (by rw [hct]; simp)).1
      rw [parseGo_chunks e.1 [e.2] hch (write_fasta es w) []]
      simp only [List.nil_append]
      rw [parseGo_write w es hes e.1 [e.2] hene hest]
      simp

lemma c9_write2 : write_fasta [(['h'], ['A', 'B', '>', 'C', 'D'])] 2 =
    [['>', 'h'], ['A', 'B'], ['>', 'C'], ['D']] := by
  simp [write_fasta, chunkList]

/-- Claim C9 is false as stated: residues may contain `'>'`, and wrapping
can place such a character at the start of a line, which re-parses as a new
header.  The valid FASTA text `">h\nAB>CD"` parses to one entry, but
serializing with wrap width 2 and re-parsing yields two different
entries. -/
theorem claim9_counterexample :
    parse_fasta [['>', 'h'], ['A', 'B', '>', 'C', 'D']] =
      .ok [(['h'], ['A', 'B', '>', 'C', 'D'])] ∧
    parse_fasta (write_fasta [(['h'], ['A', 'B', '>', 'C', 'D'])] 2) =
      .ok [(['h'], ['A', 'B']), (['C'], ['D'])] ∧
    parse_fasta (write_fasta [(['h'], ['A', 'B', '>', 'C', 'D'])] 2) ≠
      .ok [(['h'], ['A', 'B', '>', 'C', 'D'])] := by
  refine ⟨by rfl, ?_, ?_⟩
  · rw [c9_write2]
    rfl
  · rw [c9_write2]
    intro h
    have h2 := Except.ok.inj h
    exact absurd h2 (by decide)

/-- Claim C9 amended (restricted to residues containing neither `'>'` nor
whitespace): for every valid FASTA text, serializing the parsed entries at
any wrap width and parsing again reproduces the same entries. -/
theorem claim9_roundtrip (lines : List (List Char))
    (entries : List (List Char × List Char)) (w : Int)
    (hp : parse_fasta lines = .ok entries)
    (hres : ∀ p ∈ entries, ∀ c ∈ p.2, c ≠ '>' ∧ py_isspace c = false) :
    parse_fasta (write_fasta entries w) = .ok entries := by
  have hgo : parseGo none [] lines = entries ∧ entries ≠ [] := by
    rw [parse_fasta] at hp
    by_cases h : parseGo none [] lines = []
    · rw [if_pos h] at hp
      exact absurd hp (by simp)
    · rw [if_neg h] at hp
      have h2 := Except.ok.inj hp
      exact ⟨h2, h2 ▸ h⟩
  obtain ⟨hgo, hne⟩ := hgo
  have hlab : ∀ p ∈ entries, p.1 ≠ [] ∧ pyStrip p.1 = p.1 := by
    intro p hp2
    apply parseGo_labels lines none [] _ p (hgo ▸ hp2)
    intro hh h
    simp at h
  have hgood : ∀ p ∈ entries, (p.1 ≠ [] ∧ pyStrip p.1 = p.1) ∧
      ∀ c ∈ p.2, c ≠ '>' ∧ py_isspace c = false :=
    fun p hp2 => ⟨hlab p hp2, hres p hp2⟩
  rw [parse_fasta, parseGo_write_none w entries hgood hne, if_neg hne]

/-- Witness for `claim9_roundtrip` on the text `">h\nMSTAG"` with wrap
width 2. -/
theorem claim9_roundtrip_witness :
    (parse_fasta [['>', 'h'], ['M', 'S', 'T', 'A', 'G']] =
      .ok [(['h'], ['M', 'S', 'T', 'A', 'G'])] ∧
    (∀ p ∈ [((['h'] : List Char), (['M', 'S', 'T', 'A', 'G'] : List Char))],
      ∀ c ∈ p.2, c ≠ '>' ∧ py_isspace c = false)) ∧
    parse_fasta (write_fasta [(['h'], ['M', 'S', 'T', 'A', 'G'])] 2) =
      .ok [(['h'], ['M', 'S', 'T', 'A', 'G'])] :=
  ⟨⟨by rfl, by decide⟩,
    claim9_roundtrip [['>', 'h'], ['M', 'S', 'T', 'A', 'G']]
      [(['h'], ['M', 'S', 'T', 'A', 'G'])] 2 (by rfl) (by decide)⟩

/-! Infrastructure for the idempotence claim (C2): specification of
`find_blocks`, the trim loops, and the mask pipeline. -/

lemma getD_drop_head (M : List Bool) (i : Nat) (b : Bool) (rest : List Bool)
    (h : M.drop i = b :: rest) : M.getD i false = b ∧ M.drop (i + 1) = rest ∧ i < M.length := by
  have hlt : i < M.length := by
    by_contra hge
    rw [List.drop_eq_nil_of_le (by omega)] at h
    exact absurd h (by simp)
  refine ⟨?_, ?_, hlt⟩
  · have h2 : M[i]? = some b := by
      have h3 := List.head?_drop M i
      rw [h, List.head?_cons] at h3
      exact h3.symm
    rw [List.getD_eq_getElem?_getD, h2]
    rfl
  · have := List.drop_drop 1 i M
    rw [h] at this
    rw [show i + 1 = i + 1 from rfl, ← this]
    rfl

lemma findGo_spec (ml : Int) (M : List Bool) :
    ∀ (xs : List Bool) (i : Nat) (st : Option Nat),
      M.drop i = xs → i ≤ M.length →
      (st = none → i = 0 ∨ M.getD (i - 1) false = false) →
      (∀ s0, st = some s0 → s0 < i ∧ (∀ t, s0 ≤ t → t < i → M.getD t false = true) ∧
        (s0 = 0 ∨ M.getD (s0 - 1) false = false)) →
      ∀ be ∈ findGo ml i st xs,
        be.1 < be.2 ∧ be.2 ≤ M.length ∧
        (∀ t, be.1 ≤ t → t < be.2 → M.getD t false = true) ∧
        (be.1 = 0 ∨ M.getD (be.1 - 1) false = false) ∧
        (be.2 = M.length ∨ M.getD be.2 false = false) ∧
        ml ≤ (be.2 : Int) - (be.1 : Int) := by
  intro xs
  induction xs with
  | nil =>
    intro i st hdrop hle hnone hsome be hbe
    have hlen : M.length ≤ i := by
      by_contra hcon
      have : M.drop i ≠ [] := by
        intro hnil
        have := congrArg List.length hnil
        simp at this
        omega
      exact this hdrop
    have hieq : i = M.length := by omega
    cases st with
    | none => simp [findGo] at hbe
    | some s0 =>
      obtain ⟨hs0i, hall, hleft⟩ := hsome s0 rfl
      simp only [findGo] at hbe
      split at hbe
      · rename_i hcond
        simp only [List.mem_singleton] at hbe
        subst hbe
        exact ⟨hs0i, by omega, fun t h1 h2 => hall t h1 h2, hleft, Or.inl hieq, hcond⟩
      · simp at hbe
  | cons b rest ih =>
    intro i st hdrop hle hnone hsome be hbe
    obtain ⟨hb, hdrop2, hlt⟩ := getD_drop_head M i b rest hdrop
    cases b with
    | true =>
      cases st with
      | none =>
        simp only [findGo] at hbe
        apply ih (i+1) (some i) hdrop2 (by omega) (by simp) ?_ be hbe
        intro s0 hs0
        injection hs0 with hs0
        subst hs0
        refine ⟨by omega, ?_, hnone rfl⟩
        intro t ht1 ht2
        have : t = i := by omega
        subst this
        exact hb
      | some s0 =>
        obtain ⟨hs0i, hall, hleft⟩ := hsome s0 rfl
        simp only [findGo] at hbe
        apply ih (i+1) (some s0) hdrop2 (by omega) (by simp) ?_ be hbe
        intro s1 hs1
        injection hs1 with hs1
        subst hs1
        refine ⟨by omega, ?_, hleft⟩
        intro t ht1 ht2
        rcases Nat.lt_or_ge t i with h | h
        · exact hall t ht1 h
        · have : t = i := by omega
          subst this
          exact hb
    | false =>
      cases st with
      | none =>
        simp only [findGo] at hbe
        apply ih (i+1) none hdrop2 (by omega) ?_ (by simp) be hbe
        intro _
        right
        simpa using hb
      | some s0 =>
        obtain ⟨hs0i, hall, hleft⟩ := hsome s0 rfl
        simp only [findGo] at hbe
        rcases List.mem_append.mp hbe with hmem | hmem
        · split at hmem
          · rename_i hcond
            simp only [List.mem_singleton] at hmem
            subst hmem
            exact ⟨hs0i, by omega, fun t h1 h2 => hall t h1 h2, hleft,
              Or.inr hb, hcond⟩
          · simp at hmem
        · apply ih (i+1) none hdrop2 (by omega) ?_ (by simp) be hmem
          intro _
          right
          simpa using hb

lemma findGo_start_ge (ml : Int) :
    ∀ (xs : List Bool) (i : Nat) (st : Option Nat), ∀ be ∈ findGo ml i st xs,
      (match st with
       | none => i ≤ be.1
       | some s0 => min s0 i ≤ be.1) := by
  intro xs
  induction xs with
  | nil =>
    intro i st be hbe
    cases st with
    | none => simp [findGo] at hbe
    | some s0 =>
      simp only [findGo] at hbe
      split at hbe
      · simp only [List.mem_singleton] at hbe
        subst hbe
        simp only
        omega
      · simp at hbe
  | cons b rest ih =>
    intro i st be hbe
    cases b with
    | true =>
      cases st with
      | none =>
        simp only [findGo] at hbe
        have := ih (i+1) (some i) be hbe
        simp only at this ⊢
        omega
      | some s0 =>
        simp only [findGo] at hbe
        have := ih (i+1) (some s0) be hbe
        simp only at this ⊢
        omega
    | false =>
      cases st with
      | none =>
        simp only [findGo] at hbe
        have := ih (i+1) none be hbe
        simp only at this ⊢
        omega
      | some s0 =>
        simp only [findGo] at hbe
        rcases List.mem_append.mp hbe with hmem | hmem
        · split at hmem
          · simp only [List.mem_singleton] at hmem
            subst hmem
            simp only
            omega
          · simp at hmem
        · have := ih (i+1) none be hmem
          simp only at this ⊢
          omega

lemma findGo_sorted (ml : Int) :
    ∀ (xs : List Bool) (i : Nat) (st : Option Nat),
      List.Pairwise (fun b1 b2 : Nat × Nat => b1.2 ≤ b2.1) (findGo ml i st xs) := by
  intro xs
  induction xs with
  | nil =>
    intro i st
    cases st with
    | none => simp [findGo]
    | some s0 =>
      simp only [findGo]
      split <;> simp
  | cons b rest ih =>
    intro i st
    cases b with
    | true =>
      cases st with
      | none => simp only [findGo]; exact ih (i+1) (some i)
      | some s0 => simp only [findGo]; exact ih (i+1) (some s0)
    | false =>
      cases st with
      | none => simp only [findGo]; exact ih (i+1) none
      | some s0 =>
        simp only [findGo]
        apply List.pairwise_append.mpr
        refine ⟨by split <;> simp, ih (i+1) none, ?_⟩
        intro b1 hb1 b2 hb2
        have hge := findGo_start_ge ml rest (i+1) none b2 hb2
        simp only at hge
        split at hb1
        · simp only [List.mem_singleton] at hb1
          subst hb1
          simp only
          omega
        · simp at hb1

lemma findGo_replicate_true (ml : Int) :
    ∀ (k i s0 : Nat),
      findGo ml i (some s0) (List.replicate k true) =
        if ml ≤ ((i + k : Nat) : Int) - (s0 : Int) then [(s0, i + k)] else [] := by
  intro k
  induction k with
  | zero =>
    intro i s0
    simp [findGo]
  | succ k ihk =>
    intro i s0
    rw [List.replicate_succ]
    simp only [findGo]
    rw [ihk (i+1) s0]
    have harith : i + 1 + k = i + (k + 1) := by omega
    rw [harith]

lemma find_blocks_replicate (ml : Int) (K : Nat) (hK : 0 < K) (hml : ml ≤ (K : Int)) :
    find_blocks (List.replicate K true) ml = [(0, K)] := by
  obtain ⟨K', hK'⟩ : ∃ K', K = K' + 1 := ⟨K - 1, by omega⟩
  subst hK'
  rw [find_blocks, List.replicate_succ]
  simp only [findGo]
  rw [findGo_replicate_true ml K' 1 0]
  rw [if_pos (by push_cast; push_cast at hml; omega)]
  have harith : 1 + K' = K' + 1 := by omega
  rw [harith]

lemma trim_left_spec (mets : List Met) (fcq mg : ℚ) :
    ∀ (s e : Nat), s ≤ e →
      s ≤ trim_left mets fcq mg s e ∧ trim_left mets fcq mg s e ≤ e ∧
      (∀ t, s ≤ t → t < trim_left mets fcq mg s e → flank_ok mets fcq mg t = false) ∧
      (trim_left mets fcq mg s e < e →
        flank_ok mets fcq mg (trim_left mets fcq mg s e) = true) := by
  intro s e
  induction s, e using trim_left.induct mets fcq mg with
  | case1 s e h ih =>
    intro _
    obtain ⟨hc1, hc2⟩ := h
    obtain ⟨ih1, ih2, ih3, ih4⟩ := ih (by omega)
    rw [trim_left, dif_pos ⟨hc1, hc2⟩]
    refine ⟨by omega, ih2, ?_, ih4⟩
    intro t ht1 ht2
    rcases Nat.eq_or_lt_of_le ht1 with h | h
    · rw [← h]; exact hc2
    · exact ih3 t (by omega) ht2
  | case2 s e h =>
    intro hse
    rw [trim_left, dif_neg h]
    refine ⟨le_refl s, hse, by omega, ?_⟩
    intro hlt
    by_contra hok
    exact h ⟨hlt, by simpa using hok⟩

lemma trim_right_spec (mets : List Met) (fcq mg : ℚ) :
    ∀ (s e : Nat), s ≤ e →
      s ≤ trim_right mets fcq mg s e ∧ trim_right mets fcq mg s e ≤ e ∧
      (∀ t, trim_right mets fcq mg s e ≤ t → t < e → flank_ok mets fcq mg t = false) ∧
      (s < trim_right mets fcq mg s e →
        flank_ok mets fcq mg (trim_right mets fcq mg s e - 1) = true) := by
  intro s e
  induction e using trim_right.induct mets fcq mg s with
  | case1 e h ih =>
    intro _
    obtain ⟨hc1, hc2⟩ := h
    obtain ⟨ih1, ih2, ih3, ih4⟩ := ih (by omega)
    rw [trim_right, dif_pos ⟨hc1, hc2⟩]
    refine ⟨ih1, by omega, ?_, ih4⟩
    intro t ht1 ht2
    rcases Nat.lt_or_ge t (e - 1) with h | h
    · exact ih3 t ht1 h
    · have : t = e - 1 := by omega
      rw [this]; exact hc2
  | case2 e h =>
    intro hse
    rw [trim_right, dif_neg h]
    refine ⟨hse, le_refl e, by omega, ?_⟩
    intro hlt
    by_contra hok
    exact h ⟨hlt, by simpa using hok⟩

lemma base_mask_length (mets : List Met) (mg mc : ℚ) :
    (base_mask mets mg mc).length = mets.length := by
  rw [base_mask, List.length_map]

lemma column_metrics_length (seqs : List (List Char)) :
    (column_metrics seqs).length = (seqs.headD []).length := by
  rw [column_metrics, List.length_map, List.length_range]

lemma gblock_mask_length (seqs : List (List Char)) (mg mc : ℚ) (mnr : Int) :
    (gblock_mask seqs mg mc mnr).length = (column_metrics seqs).length := by
  rw [gblock_mask]
  split
  · rw [_allow_short_nonconserved_runs]
    split
    · exact base_mask_length _ _ _
    · rw [absorbGo_length, base_mask_length]
  · exact base_mask_length _ _ _

lemma gblock_mask_getD (seqs : List (List Char)) (mg mc : ℚ) (mnr : Int) (k : Nat) :
    (gblock_mask seqs mg mc mnr).getD k false =
      ((base_mask (column_metrics seqs) mg mc).getD k false ||
        decide (0 < mnr ∧
          promotedAt (base_mask (column_metrics seqs) mg mc) mnr k)) := by
  rw [gblock_mask]
  by_cases h : 0 < mnr
  · rw [if_pos h, _allow_short_nonconserved_runs, if_neg (by omega), absorbGo_getD]
    congr 1
    apply decide_eq_decide.mpr
    exact ⟨fun hp => ⟨h, hp⟩, fun hp => hp.2⟩
  · rw [if_neg h]
    have hne : ¬ (0 < mnr ∧
        promotedAt (base_mask (column_metrics seqs) mg mc) mnr k) :=
      fun hc => h hc.1
    simp [hne]

lemma base_mask_getD (mets : List Met) (mg mc : ℚ) (k : Nat) (hk : k < mets.length) :
    (base_mask mets mg mc).getD k false =
      (decide ((mets.getD k ⟨0, 0⟩).gap_ratio ≤ mg) &&
        decide (mc ≤ (mets.getD k ⟨0, 0⟩).cons_ratio)) := by
  rw [base_mask, List.getD_eq_getElem _ _ (by rw [List.length_map]; exact hk),
    List.getElem_map, List.getD_eq_getElem _ _ hk]

lemma M_true_of_promoted (seqs : List (List Char)) (mg mc : ℚ) (mnr : Int) (k : Nat)
    (hr : 0 < mnr)
    (hp : promotedAt (base_mask (column_metrics seqs) mg mc) mnr k) :
    (gblock_mask seqs mg mc mnr).getD k false = true := by
  rw [gblock_mask_getD]
  have : decide (0 < mnr ∧
      promotedAt (base_mask (column_metrics seqs) mg mc) mnr k) = true :=
    decide_eq_true ⟨hr, hp⟩
  rw [this, Bool.or_true]

lemma M_true_of_base (seqs : List (List Char)) (mg mc : ℚ) (mnr : Int) (k : Nat)
    (hb : (base_mask (column_metrics seqs) mg mc).getD k false = true) :
    (gblock_mask seqs mg mc mnr).getD k false = true := by
  rw [gblock_mask_getD, hb, Bool.true_or]

lemma boundary_base_true_left (seqs : List (List Char)) (mg mc : ℚ) (mnr : Int) (s : Nat)
    (hs : (gblock_mask seqs mg mc mnr).getD s false = true)
    (hmax : s = 0 ∨ (gblock_mask seqs mg mc mnr).getD (s - 1) false = false) :
    (base_mask (column_metrics seqs) mg mc).getD s false = true := by
  by_contra hbs
  rw [gblock_mask_getD] at hs
  rw [Bool.not_eq_true] at hbs
  rw [hbs, Bool.false_or] at hs
  obtain ⟨hr, hp⟩ := of_decide_eq_true hs
  obtain ⟨u, hu, v, hv, hkv, hall, hlenuv, hleft, hright⟩ := hp
  have hu1 : ¬ u = 0 := by
    intro h0
    rw [if_pos h0] at hleft
    exact absurd hleft (by simp)
  rw [if_neg hu1] at hleft
  have hMs1 : (gblock_mask seqs mg mc mnr).getD (s - 1) false = true := by
    rcases Nat.eq_or_lt_of_le hu with h | h
    · rw [← h]
      exact M_true_of_base seqs mg mc mnr (u - 1) hleft
    · apply M_true_of_promoted seqs mg mc mnr (s - 1) hr
      exact ⟨u, by omega, v, hv, by omega, hall, hlenuv, by rw [if_neg hu1]; exact hleft,
        hright⟩
  rcases hmax with h0 | hfalse
  · omega
  · rw [hMs1] at hfalse
    exact absurd hfalse (by simp)

lemma boundary_base_true_right (seqs : List (List Char)) (mg mc : ℚ) (mnr : Int) (e : Nat)
    (he0 : 0 < e)
    (he1 : (gblock_mask seqs mg mc mnr).getD (e - 1) false = true)
    (hmax : e = (gblock_mask seqs mg mc mnr).length ∨
      (gblock_mask seqs mg mc mnr).getD e false = false) :
    (base_mask (column_metrics seqs) mg mc).getD (e - 1) false = true := by
  by_contra hbs
  rw [gblock_mask_getD] at he1
  rw [Bool.not_eq_true] at hbs
  rw [hbs, Bool.false_or] at he1
  obtain ⟨hr, hp⟩ := of_decide_eq_true he1
  obtain ⟨u, hu, v, hv, hkv, hall, hlenuv, hleft, hright⟩ := hp
  have hvlen : v < (gblock_mask seqs mg mc mnr).length := by
    rw [gblock_mask_length]
    rw [← base_mask_length (column_metrics seqs) mg mc]
    exact hv
  have hMe : (gblock_mask seqs mg mc mnr).getD e false = true := by
    rcases Nat.eq_or_lt_of_le (show e ≤ v by omega) with h | h
    · rw [h]
      exact M_true_of_base seqs mg mc mnr v hright
    · apply M_true_of_promoted seqs mg mc mnr e hr
      exact ⟨u, by omega, v, hv, h, hall, hlenuv,
        by
          have hu1 : ¬ u = 0 := by
            intro h0
            rw [if_pos h0] at hleft
            exact absurd hleft (by simp)
          rw [if_neg hu1]
          rw [if_neg hu1] at hleft
          exact hleft,
        hright⟩
  rcases hmax with h0 | hfalse
  · omega
  · rw [hMe] at hfalse
    exact absurd hfalse (by simp)

lemma base_true_iff (seqs : List (List Char)) (mg mc : ℚ) (k : Nat)
    (hk : k < (column_metrics seqs).length) :
    (base_mask (column_metrics seqs) mg mc).getD k false = true ↔
      ((column_metrics seqs).getD k ⟨0, 0⟩).gap_ratio ≤ mg ∧
        mc ≤ ((column_metrics seqs).getD k ⟨0, 0⟩).cons_ratio := by
  rw [base_mask_getD _ _ _ _ hk]
  simp

lemma flank_ok_iff (mets : List Met) (fcq mg : ℚ) (k : Nat) :
    flank_ok mets fcq mg k = true ↔
      (mets.getD k ⟨0, 0⟩).gap_ratio ≤ mg ∧ fcq ≤ (mets.getD k ⟨0, 0⟩).cons_ratio := by
  rw [flank_ok]
  simp

lemma soft_trim_extract (b0 : Nat × Nat) (mets : List Met) (fcq mg : ℚ) (tb : Nat × Nat)
    (h : soft_trim_block b0 mets fcq mg = some tb) :
    tb.1 = trim_left mets fcq mg b0.1 b0.2 ∧
    tb.2 = trim_right mets fcq mg (trim_left mets fcq mg b0.1 b0.2) b0.2 ∧
    tb.1 < tb.2 := by
  rw [soft_trim_block] at h
  split at h
  · rename_i hlt
    injection h with h
    rw [← h]
    exact ⟨rfl, rfl, hlt⟩
  · exact absurd h (by simp)

lemma blocksF_extract (mets : List Met) (mbl : Int) (mg fcq : ℚ) (b0 tb : Nat × Nat)
    (h : (match soft_trim_block b0 mets fcq mg with
          | some tb2 => if mbl ≤ (tb2.2 : Int) - (tb2.1 : Int) then some tb2 else none
          | none => none) = some tb) :
    soft_trim_block b0 mets fcq mg = some tb ∧ mbl ≤ (tb.2 : Int) - (tb.1 : Int) := by
  split at h
  · rename_i tb2 hst
    split at h
    · rename_i hcond
      injection h with h
      subst h
      exact ⟨hst, hcond⟩
    · exact absurd h (by simp)
  · exact absurd h (by simp)

lemma find_blocks_spec (seqs : List (List Char)) (mbl : Int) (mg mc : ℚ) (mnr : Int) :
    ∀ b0 ∈ find_blocks (gblock_mask seqs mg mc mnr) mbl,
      b0.1 < b0.2 ∧ b0.2 ≤ (gblock_mask seqs mg mc mnr).length ∧
      (∀ t, b0.1 ≤ t → t < b0.2 → (gblock_mask seqs mg mc mnr).getD t false = true) ∧
      (b0.1 = 0 ∨ (gblock_mask seqs mg mc mnr).getD (b0.1 - 1) false = false) ∧
      (b0.2 = (gblock_mask seqs mg mc mnr).length ∨
        (gblock_mask seqs mg mc mnr).getD b0.2 false = false) ∧
      mbl ≤ (b0.2 : Int) - (b0.1 : Int) := by
  intro b0 hb0
  exact findGo_spec mbl (gblock_mask seqs mg mc mnr) (gblock_mask seqs mg mc mnr) 0 none
    (by simp) (by omega) (fun _ => Or.inl rfl) (by simp) b0 hb0

lemma find_blocks_base_true (seqs : List (List Char)) (mbl : Int) (mg mc : ℚ) (mnr : Int) :
    ∀ b0 ∈ find_blocks (gblock_mask seqs mg mc mnr) mbl,
      (base_mask (column_metrics seqs) mg mc).getD b0.1 false = true ∧
      (base_mask (column_metrics seqs) mg mc).getD (b0.2 - 1) false = true := by
  intro b0 hb0
  obtain ⟨h1, h2, h3, h4, h5, h6⟩ := find_blocks_spec seqs mbl mg mc mnr b0 hb0
  constructor
  · exact boundary_base_true_left seqs mg mc mnr b0.1 (h3 b0.1 (le_refl _) h1) h4
  · exact boundary_base_true_right seqs mg mc mnr b0.2 (by omega)
      (h3 (b0.2 - 1) (by omega) (by omega)) h5

lemma gblock_blocks_spec (seqs : List (List Char)) (mbl : Int) (mg mc : ℚ)
    (fc : Option ℚ) (mnr : Int) :
    ∀ be ∈ gblock_blocks seqs mbl mg mc fc mnr,
      be.1 < be.2 ∧ be.2 ≤ (column_metrics seqs).length ∧
      mbl ≤ (be.2 : Int) - (be.1 : Int) ∧
      (∀ t, be.1 ≤ t → t < be.2 → (gblock_mask seqs mg mc mnr).getD t false = true) ∧
      (base_mask (column_metrics seqs) mg mc).getD be.1 false = true ∧
      (base_mask (column_metrics seqs) mg mc).getD (be.2 - 1) false = true ∧
      (∀ fcq, fc = some fcq →
        flank_ok (column_metrics seqs) fcq mg be.1 = true ∧
        flank_ok (column_metrics seqs) fcq mg (be.2 - 1) = true) := by
  intro be hbe
  cases fc with
  | none =>
    rw [gblock_blocks] at hbe
    obtain ⟨h1, h2, h3, h4, h5, h6⟩ := find_blocks_spec seqs mbl mg mc mnr be hbe
    obtain ⟨hbl, hbr⟩ := find_blocks_base_true seqs mbl mg mc mnr be hbe
    rw [gblock_mask_length] at h2
    exact ⟨h1, h2, h6, h3, hbl, hbr, fun fcq h => absurd h (by simp)⟩
  | some fcq =>
    rw [gblock_blocks] at hbe
    simp only [List.mem_filterMap] at hbe
    obtain ⟨b0, hb0, hf⟩ := hbe
    obtain ⟨hst, hmbl⟩ := blocksF_extract _ mbl mg fcq b0 be hf
    obtain ⟨hts, hte, hlt⟩ := soft_trim_extract b0 _ fcq mg be hst
    obtain ⟨h1, h2, h3, h4, h5, h6⟩ := find_blocks_spec seqs mbl mg mc mnr b0 hb0
    obtain ⟨hbl, hbr⟩ := find_blocks_base_true seqs mbl mg mc mnr b0 hb0
    rw [gblock_mask_length] at h2
    rw [← hts] at hte
    obtain ⟨hs1, hs2, hs3, hs4⟩ := trim_left_spec (column_metrics seqs) fcq mg b0.1 b0.2
      (by omega)
    rw [← hts] at hs1 hs2 hs3 hs4
    obtain ⟨he1, he2, he3, he4⟩ := trim_right_spec (column_metrics seqs) fcq mg be.1 b0.2 hs2
    rw [← hte] at he1 he2 he3 he4
    have hsbound : be.1 < b0.2 := by omega
    have hflanks : flank_ok (column_metrics seqs) fcq mg be.1 = true := hs4 hsbound
    have hflanke : flank_ok (column_metrics seqs) fcq mg (be.2 - 1) = true := he4 hlt
    have hMtrue : ∀ t, be.1 ≤ t → t < be.2 →
        (gblock_mask seqs mg mc mnr).getD t false = true := by
      intro t ht1 ht2
      exact h3 t (by omega) (by omega)
    have hbase_s : (base_mask (column_metrics seqs) mg mc).getD be.1 false = true := by
      rcases le_total fcq mc with hcmp | hcmp
      · have hfl0 : flank_ok (column_metrics seqs) fcq mg b0.1 = true := by
          rw [flank_ok_iff]
          have := (base_true_iff seqs mg mc b0.1 (by omega)).mp hbl
          exact ⟨this.1, le_trans hcmp this.2⟩
        have hseq : be.1 = b0.1 := by
          by_contra hne
          have hlt2 : b0.1 < be.1 := by omega
          have := hs3 b0.1 (le_refl _) hlt2
          rw [hfl0] at this
          exact absurd this (by simp)
        rw [hseq]
        exact hbl
      · rw [base_true_iff seqs mg mc be.1 (by omega)]
        have := (flank_ok_iff (column_metrics seqs) fcq mg be.1).mp hflanks
        exact ⟨this.1, le_trans hcmp this.2⟩
    have hbase_e : (base_mask (column_metrics seqs) mg mc).getD (be.2 - 1) false = true := by
      rcases le_total fcq mc with hcmp | hcmp
      · have hfl0 : flank_ok (column_metrics seqs) fcq mg (b0.2 - 1) = true := by
          rw [flank_ok_iff]
          have := (base_true_iff seqs mg mc (b0.2 - 1) (by omega)).mp hbr
          exact ⟨this.1, le_trans hcmp this.2⟩
        have heeq : be.2 = b0.2 := by
          by_contra hne
          have hlt2 : be.2 < b0.2 := by omega
          have := he3 (b0.2 - 1) (by omega) (by omega)
          rw [hfl0] at this
          exact absurd this (by simp)
        rw [heeq]
        exact hbr
      · rw [base_true_iff seqs mg mc (be.2 - 1) (by omega)]
        have := (flank_ok_iff (column_metrics seqs) fcq mg (be.2 - 1)).mp hflanke
        exact ⟨this.1, le_trans hcmp this.2⟩
    exact ⟨hlt, by omega, hmbl, hMtrue, hbase_s, hbase_e,
      fun fcq2 h => by
        injection h with h
        subst h
        exact ⟨hflanks, hflanke⟩⟩

lemma trim_left_ge (mets : List Met) (fcq mg : ℚ) (s e : Nat) :
    s ≤ trim_left mets fcq mg s e := by
  induction s, e using trim_left.induct mets fcq mg with
  | case1 s e h ih =>
    rw [trim_left, dif_pos h]
    omega
  | case2 s e h =>
    rw [trim_left, dif_neg h]

lemma trim_right_le (mets : List Met) (fcq mg : ℚ) (s e : Nat) :
    trim_right mets fcq mg s e ≤ e := by
  induction e using trim_right.induct mets fcq mg s with
  | case1 e h ih =>
    rw [trim_right, dif_pos h]
    omega
  | case2 e h =>
    rw [trim_right, dif_neg h]

lemma gblock_blocks_sorted (seqs : List (List Char)) (mbl : Int) (mg mc : ℚ)
    (fc : Option ℚ) (mnr : Int) :
    List.Pairwise (fun b1 b2 : Nat × Nat => b1.2 ≤ b2.1)
      (gblock_blocks seqs mbl mg mc fc mnr) := by
  cases fc with
  | none =>
    rw [gblock_blocks]
    exact findGo_sorted mbl _ 0 none
  | some fcq =>
    rw [gblock_blocks]
    refine List.Pairwise.filterMap _ ?_ (findGo_sorted mbl _ 0 none)
    intro b0 b0' hR tb htb tb' htb'
    have hRle : b0.2 ≤ b0'.1 := hR
    obtain ⟨hst, _⟩ := blocksF_extract _ mbl mg fcq b0 tb htb
    obtain ⟨hst', _⟩ := blocksF_extract _ mbl mg fcq b0' tb' htb'
    obtain ⟨hts, hte, hlt⟩ := soft_trim_extract b0 _ fcq mg tb hst
    obtain ⟨hts', hte', hlt'⟩ := soft_trim_extract b0' _ fcq mg tb' hst'
    have h1 : tb.2 ≤ b0.2 := by
      rw [hte]
      exact trim_right_le _ fcq mg _ b0.2
    have h2 : b0'.1 ≤ tb'.1 := by
      rw [hts']
      exact trim_left_ge _ fcq mg b0'.1 b0'.2
    omega

lemma getD_irrel (l : List Bool) (n : Nat) (d d' : Bool) (h : n < l.length) :
    l.getD n d = l.getD n d' := by
  rw [List.getD_eq_getElem _ _ h, List.getD_eq_getElem _ _ h]

lemma getD_map_lt (l : List Nat) (f : Nat → Bool) (k : Nat) (d : Bool)
    (hk : k < l.length) :
    (l.map f).getD k d = f (l.getD k 0) := by
  rw [List.getD_eq_getElem _ _ (by simpa using hk), List.getElem_map,
    List.getD_eq_getElem _ _ hk]

lemma getD_map_met (l : List Nat) (f : Nat → Met) (k : Nat) (d : Met)
    (hk : k < l.length) :
    (l.map f).getD k d = f (l.getD k 0) := by
  rw [List.getD_eq_getElem _ _ (by simpa using hk), List.getElem_map,
    List.getD_eq_getElem _ _ hk]

lemma getD_map_char (l : List Nat) (f : Nat → Char) (k : Nat) (d : Char)
    (hk : k < l.length) :
    (l.map f).getD k d = f (l.getD k 0) := by
  rw [List.getD_eq_getElem _ _ (by simpa using hk), List.getElem_map,
    List.getD_eq_getElem _ _ hk]

lemma range_map_getD_char (l : List Char) (d : Char) :
    (List.range l.length).map (fun k => l.getD k d) = l := by
  induction l with
  | nil => rfl
  | cons a t ih =>
    rw [List.length_cons, List.range_succ_eq_map, List.map_cons, List.map_map]
    have h2 : (List.range t.length).map ((fun k => (a :: t).getD k d) ∘ Nat.succ) =
        (List.range t.length).map (fun k => t.getD k d) := by
      apply List.map_congr_left
      intro k _
      rfl
    rw [h2, ih]
    rfl

lemma range_map_comp_getD (l : List Nat) (f : Nat → Met) :
    (List.range l.length).map (fun k => f (l.getD k 0)) = l.map f := by
  induction l with
  | nil => rfl
  | cons a t ih =>
    rw [List.length_cons, List.range_succ_eq_map, List.map_cons, List.map_map]
    have h2 : (List.range t.length).map ((fun k => f ((a :: t).getD k 0)) ∘ Nat.succ) =
        (List.range t.length).map (fun k => f (t.getD k 0)) := by
      apply List.map_congr_left
      intro k _
      rfl
    rw [h2, ih]
    rfl

lemma getD_range' (s n i : Nat) (h : i < n) : (List.range' s n).getD i 0 = s + i := by
  rw [List.getD_eq_getElem _ _ (by simpa using h), List.getElem_range']
  omega

/-- Position correspondence inside a concatenation of blocks: every index
`k` of the flattened kept-column list lies inside the contiguous copy of
some block, and that copy enumerates the block's columns in order. -/
lemma keep_pos (bs : List (Nat × Nat)) :
    ∀ k, k < (bs.flatMap (fun b => List.range' b.1 (b.2 - b.1))).length →
      ∃ b ∈ bs, ∃ o, o ≤ k ∧ k < o + (b.2 - b.1) ∧
        o + (b.2 - b.1) ≤ (bs.flatMap (fun b => List.range' b.1 (b.2 - b.1))).length ∧
        ∀ t, t < b.2 - b.1 →
          (bs.flatMap (fun b => List.range' b.1 (b.2 - b.1))).getD (o + t) 0 = b.1 + t := by
  induction bs with
  | nil => intro k hk; simp at hk
  | cons b rest ih =>
    intro k hk
    rw [List.flatMap_cons]
    rw [List.flatMap_cons, List.length_append, List.length_range'] at hk
    by_cases hcase : k < b.2 - b.1
    · refine ⟨b, List.mem_cons_self b rest, 0, by omega, by omega, ?_, ?_⟩
      · rw [List.length_append, List.length_range']
        omega
      · intro t ht
        rw [Nat.zero_add, List.getD_append _ _ _ _ (by simpa using ht), getD_range' _ _ _ ht]
    · obtain ⟨b', hb', o, ho1, ho2, ho3, hcor⟩ := ih (k - (b.2 - b.1)) (by omega)
      refine ⟨b', List.mem_cons_of_mem b hb', o + (b.2 - b.1), by omega, by omega, ?_, ?_⟩
      · rw [List.length_append, List.length_range']
        omega
      · intro t ht
        have harr : o + (b.2 - b.1) + t = (b.2 - b.1) + (o + t) := by omega
        rw [harr, List.getD_append_right _ _ _ _ (by rw [List.length_range']; omega)]
        rw [List.length_range']
        have harr2 : b.2 - b.1 + (o + t) - (b.2 - b.1) = o + t := by omega
        rw [harr2]
        exact hcor t ht

lemma gblock_keep_false (seqs : List (List Char)) (mbl : Int) (mg mc : ℚ)
    (fc : Option ℚ) (mnr : Int) :
    gblock_keep seqs mbl mg mc fc false mnr =
      (gblock_blocks seqs mbl mg mc fc mnr).flatMap
        (fun b => List.range' b.1 (b.2 - b.1)) := rfl

lemma keep_mem_lt (seqs : List (List Char)) (mbl : Int) (mg mc : ℚ)
    (fc : Option ℚ) (mnr : Int) :
    ∀ i ∈ (gblock_blocks seqs mbl mg mc fc mnr).flatMap
        (fun b => List.range' b.1 (b.2 - b.1)),
      i < (column_metrics seqs).length := by
  intro i hi
  rw [List.mem_flatMap] at hi
  obtain ⟨b, hb, hib⟩ := hi
  rw [List.mem_range'] at hib
  obtain ⟨j, hj, hij⟩ := hib
  obtain ⟨h1, h2, _⟩ := gblock_blocks_spec seqs mbl mg mc fc mnr b hb
  omega

lemma metAt_congr (seqs2 seqs : List (List Char)) (k j : Nat)
    (hcol : seqs2.map (fun s => s.getD k '-') = seqs.map (fun s => s.getD j '-'))
    (hn : seqs2.length = seqs.length) :
    metAt seqs2 k = metAt seqs j := by
  simp only [metAt]
  rw [hcol, hn]

lemma column_metrics_getD (seqs : List (List Char)) (j : Nat)
    (hj : j < (column_metrics seqs).length) :
    (column_metrics seqs).getD j ⟨0, 0⟩ = metAt seqs j := by
  rw [column_metrics_length] at hj
  rw [column_metrics,
    List.getD_eq_getElem _ _ (by simpa using hj), List.getElem_map, List.getElem_range]

lemma mets2_eq (seqs : List (List Char)) (keep : List Nat) (hs : seqs ≠ [])
    (hkeep : ∀ i ∈ keep, i < (seqs.headD []).length) :
    column_metrics (seqs.map (fun s => keep.map (fun i => s.getD i '-'))) =
      keep.map (fun i => (column_metrics seqs).getD i ⟨0, 0⟩) := by
  have hh : ((seqs.map (fun s => keep.map (fun i => s.getD i '-'))).headD []).length =
      keep.length := by
    cases seqs with
    | nil => exact absurd rfl hs
    | cons a t => rw [List.map_cons, List.headD_cons, List.length_map]
  rw [column_metrics, hh]
  have hstep : (List.range keep.length).map
      (metAt (seqs.map (fun s => keep.map (fun i => s.getD i '-')))) =
      (List.range keep.length).map (fun k => metAt seqs (keep.getD k 0)) := by
    apply List.map_congr_left
    intro k hk
    rw [List.mem_range] at hk
    apply metAt_congr
    · rw [List.map_map]
      apply List.map_congr_left
      intro s _
      exact getD_map_char keep _ k '-' hk
    · rw [List.length_map]
  rw [hstep, range_map_comp_getD keep (metAt seqs)]
  apply List.map_congr_left
  intro i hi
  exact (column_metrics_getD seqs i (by rw [column_metrics_length]; exact hkeep i hi)).symm

lemma base2_eq (seqs : List (List Char)) (keep : List Nat) (mg mc : ℚ) (hs : seqs ≠ [])
    (hkeep : ∀ i ∈ keep, i < (seqs.headD []).length) :
    base_mask (column_metrics (seqs.map (fun s => keep.map (fun i => s.getD i '-')))) mg mc =
      keep.map (fun i => (base_mask (column_metrics seqs) mg mc).getD i false) := by
  rw [mets2_eq seqs keep hs hkeep, base_mask, List.map_map]
  apply List.map_congr_left
  intro i hi
  exact (base_mask_getD (column_metrics seqs) mg mc i
    (by rw [column_metrics_length]; exact hkeep i hi)).symm

/-- Every column of the filtered matrix passes the second-pass keep mask:
base columns stay base-true, and a run absorbed in the first pass maps to a
contiguous run of the same length, still bounded by base-true columns inside
the same block, so it is absorbed again. -/
lemma mask2_true (seqs : List (List Char)) (mbl : Int) (mg mc : ℚ) (fc : Option ℚ)
    (mnr : Int) (keep : List Nat) (hs : seqs ≠ [])
    (hkeep : keep = (gblock_blocks seqs mbl mg mc fc mnr).flatMap
      (fun b => List.range' b.1 (b.2 - b.1)))
    (k : Nat) (hk : k < keep.length) :
    (gblock_mask (seqs.map (fun s => keep.map (fun i => s.getD i '-'))) mg mc mnr).getD
      k false = true := by
  have hkeeplt : ∀ i ∈ keep, i < (seqs.headD []).length := by
    intro i hi
    rw [hkeep] at hi
    have := keep_mem_lt seqs mbl mg mc fc mnr i hi
    rw [column_metrics_length] at this
    exact this
  have hbase2 := base2_eq seqs keep mg mc hs hkeeplt
  have hbase2len : (base_mask (column_metrics
      (seqs.map (fun s => keep.map (fun i => s.getD i '-')))) mg mc).length =
      keep.length := by
    rw [hbase2, List.length_map]
  obtain ⟨b, hbmem, o, ho1, ho2, ho3, hcor⟩ := keep_pos _ k (by rw [← hkeep]; exact hk)
  rw [← hkeep] at ho3 hcor
  obtain ⟨hb1, hb2, hb3, hbM, hbs, hbe, _⟩ := gblock_blocks_spec seqs mbl mg mc fc mnr b hbmem
  have hbaselen : (base_mask (column_metrics seqs) mg mc).length =
      (column_metrics seqs).length := base_mask_length _ _ _
  have hj : keep.getD k 0 = b.1 + (k - o) := by
    have h2 := hcor (k - o) (by omega)
    rwa [show o + (k - o) = k from by omega] at h2
  have hjlt : b.1 + (k - o) < b.2 := by omega
  have hMj := hbM (b.1 + (k - o)) (by omega) hjlt
  rw [gblock_mask_getD] at hMj ⊢
  have hb2k : (base_mask (column_metrics
      (seqs.map (fun s => keep.map (fun i => s.getD i '-')))) mg mc).getD k false =
      (base_mask (column_metrics seqs) mg mc).getD (b.1 + (k - o)) false := by
    rw [hbase2, getD_map_lt keep _ k false hk, hj]
  cases hbb : (base_mask (column_metrics seqs) mg mc).getD (b.1 + (k - o)) false with
  | true => rw [hb2k, hbb, Bool.true_or]
  | false =>
    rw [hbb, Bool.false_or] at hMj
    obtain ⟨hr, hp⟩ := of_decide_eq_true hMj
    obtain ⟨u, hu1, v, hv1, hv2, hrun, hlen, hleft, hright⟩ := hp
    have hu0 : u ≠ 0 := by
      intro h0
      rw [h0, if_pos rfl] at hleft
      exact absurd hleft (by simp)
    rw [if_neg hu0] at hleft
    have hsu : b.1 < u := by
      by_contra hc
      have hrb : (base_mask (column_metrics seqs) mg mc).getD b.1 true = false :=
        hrun b.1 (by omega) (by omega)
      rw [getD_irrel _ b.1 true false (by omega)] at hrb
      rw [hrb] at hbs
      exact absurd hbs (by simp)
    have hve : v ≤ b.2 - 1 := by
      by_contra hc
      have hrb : (base_mask (column_metrics seqs) mg mc).getD (b.2 - 1) true = false :=
        hrun (b.2 - 1) (by omega) (by omega)
      rw [getD_irrel _ (b.2 - 1) true false (by omega)] at hrb
      rw [hrb] at hbe
      exact absurd hbe (by simp)
    have hkeep_at : ∀ w, b.1 ≤ w → w < b.2 →
        (base_mask (column_metrics
          (seqs.map (fun s => keep.map (fun i => s.getD i '-')))) mg mc).getD
            (o + (w - b.1)) false =
          (base_mask (column_metrics seqs) mg mc).getD w false := by
      intro w hw1 hw2
      have hwlt : o + (w - b.1) < keep.length := by omega
      rw [hbase2, getD_map_lt keep _ _ false hwlt]
      have hkw : keep.getD (o + (w - b.1)) 0 = w := by
        have h2 := hcor (w - b.1) (by omega)
        rwa [show b.1 + (w - b.1) = w from by omega] at h2
      rw [hkw]
    have hpromoted : promotedAt (base_mask (column_metrics
        (seqs.map (fun s => keep.map (fun i => s.getD i '-')))) mg mc) mnr k := by
      refine ⟨o + (u - b.1), by omega, o + (v - b.1), ?_, by omega, ?_, ?_, ?_, ?_⟩
      · rw [hbase2len]
        omega
      · intro t ht1 ht2
        have htlt : t < keep.length := by omega
        rw [getD_irrel _ t true false (by rw [hbase2len]; exact htlt)]
        have harr : t = o + ((b.1 + (t - o)) - b.1) := by omega
        rw [harr, hkeep_at (b.1 + (t - o)) (by omega) (by omega)]
        have hrb : (base_mask (column_metrics seqs) mg mc).getD (b.1 + (t - o)) true =
            false := hrun (b.1 + (t - o)) (by omega) (by omega)
        rw [getD_irrel _ _ true false (by omega)] at hrb
        exact hrb
      · have harr : (o + (v - b.1)) - (o + (u - b.1)) = v - u := by omega
        rw [harr]
        exact hlen
      · rw [if_neg (by omega)]
        have harr : o + (u - b.1) - 1 = o + ((u - 1) - b.1) := by omega
        rw [harr, hkeep_at (u - 1) (by omega) (by omega)]
        exact hleft
      · have harr : o + (v - b.1) = o + (v - b.1) := rfl
        rw [hkeep_at v (by omega) (by omega)]
        exact hright
    rw [decide_eq_true ⟨hr, hpromoted⟩, Bool.or_true]

lemma keep_lt_headD (seqs : List (List Char)) (mbl : Int) (mg mc : ℚ) (fc : Option ℚ)
    (mnr : Int) (keep : List Nat)
    (hkeep : keep = (gblock_blocks seqs mbl mg mc fc mnr).flatMap
      (fun b => List.range' b.1 (b.2 - b.1))) :
    ∀ i ∈ keep, i < (seqs.headD []).length := by
  intro i hi
  rw [hkeep] at hi
  have := keep_mem_lt seqs mbl mg mc fc mnr i hi
  rwa [column_metrics_length] at this

lemma mask2_replicate (seqs : List (List Char)) (mbl : Int) (mg mc : ℚ) (fc : Option ℚ)
    (mnr : Int) (keep : List Nat) (hs : seqs ≠ [])
    (hkeep : keep = (gblock_blocks seqs mbl mg mc fc mnr).flatMap
      (fun b => List.range' b.1 (b.2 - b.1))) :
    gblock_mask (seqs.map (fun s => keep.map (fun i => s.getD i '-'))) mg mc mnr =
      List.replicate keep.length true := by
  have hkeeplt := keep_lt_headD seqs mbl mg mc fc mnr keep hkeep
  have hlen : (gblock_mask (seqs.map (fun s => keep.map (fun i => s.getD i '-')))
      mg mc mnr).length = keep.length := by
    rw [gblock_mask_length, mets2_eq seqs keep hs hkeeplt, List.length_map]
  rw [List.eq_replicate_iff]
  refine ⟨hlen, ?_⟩
  intro x hx
  obtain ⟨k, hk, hkx⟩ := List.mem_iff_getElem.mp hx
  rw [← hkx, ← List.getD_eq_getElem _ false hk]
  exact mask2_true seqs mbl mg mc fc mnr keep hs hkeep k (by rw [← hlen]; exact hk)

lemma flank2_eq (seqs : List (List Char)) (keep : List Nat) (fcq mg : ℚ) (hs : seqs ≠ [])
    (hkeeplt : ∀ i ∈ keep, i < (seqs.headD []).length) (k : Nat) (hk : k < keep.length) :
    flank_ok (column_metrics (seqs.map (fun s => keep.map (fun i => s.getD i '-'))))
        fcq mg k =
      flank_ok (column_metrics seqs) fcq mg (keep.getD k 0) := by
  rw [flank_ok, flank_ok, mets2_eq seqs keep hs hkeeplt, getD_map_met keep _ k ⟨0, 0⟩ hk]

lemma filterMap_singleton (f : Nat × Nat → Option (Nat × Nat)) (a b : Nat × Nat)
    (h : f a = some b) : List.filterMap f [a] = [b] := by
  rw [List.filterMap_cons_some h, List.filterMap_nil]

lemma blocks2_eq (seqs : List (List Char)) (mbl : Int) (mg mc : ℚ) (fc : Option ℚ)
    (mnr : Int) (keep : List Nat) (hs : seqs ≠ [])
    (hkeep : keep = (gblock_blocks seqs mbl mg mc fc mnr).flatMap
      (fun b => List.range' b.1 (b.2 - b.1)))
    (hK0 : 0 < keep.length) (hKmbl : mbl ≤ (keep.length : Int)) :
    gblock_blocks (seqs.map (fun s => keep.map (fun i => s.getD i '-'))) mbl mg mc fc mnr =
      [(0, keep.length)] := by
  have hkeeplt := keep_lt_headD seqs mbl mg mc fc mnr keep hkeep
  have hfb : find_blocks (gblock_mask
      (seqs.map (fun s => keep.map (fun i => s.getD i '-'))) mg mc mnr) mbl =
      [(0, keep.length)] := by
    rw [mask2_replicate seqs mbl mg mc fc mnr keep hs hkeep]
    exact find_blocks_replicate mbl keep.length hK0 hKmbl
  cases fc with
  | none =>
    simp only [gblock_blocks]
    exact hfb
  | some fcq =>
    obtain ⟨b0, hb0mem, o0, ho01, ho02, ho03, hcor0⟩ := keep_pos _ 0 (by rw [← hkeep]; exact hK0)
    rw [← hkeep] at ho03 hcor0
    obtain ⟨hb01, _, _, _, _, _, hb0f⟩ := gblock_blocks_spec seqs mbl mg mc (some fcq) mnr
      b0 hb0mem
    have hkeep0 : keep.getD 0 0 = b0.1 := by
      have h2 := hcor0 0 (by omega)
      have ho0 : o0 = 0 := by omega
      rw [ho0] at h2
      simpa using h2
    obtain ⟨b1, hb1mem, o1, ho11, ho12, ho13, hcor1⟩ := keep_pos _ (keep.length - 1)
      (by rw [← hkeep]; omega)
    rw [← hkeep] at ho13 hcor1
    obtain ⟨hb11, _, _, _, _, _, hb1f⟩ := gblock_blocks_spec seqs mbl mg mc (some fcq) mnr
      b1 hb1mem
    have hkeepK : keep.getD (keep.length - 1) 0 = b1.2 - 1 := by
      have h2 := hcor1 (b1.2 - b1.1 - 1) (by omega)
      rw [show o1 + (b1.2 - b1.1 - 1) = keep.length - 1 from by omega] at h2
      rw [h2]
      omega
    have hf0 : flank_ok (column_metrics
        (seqs.map (fun s => keep.map (fun i => s.getD i '-')))) fcq mg 0 = true := by
      rw [flank2_eq seqs keep fcq mg hs hkeeplt 0 hK0, hkeep0]
      exact (hb0f fcq rfl).1
    have hfK : flank_ok (column_metrics
        (seqs.map (fun s => keep.map (fun i => s.getD i '-')))) fcq mg
          (keep.length - 1) = true := by
      rw [flank2_eq seqs keep fcq mg hs hkeeplt (keep.length - 1) (by omega), hkeepK]
      exact (hb1f fcq rfl).2
    have htl : trim_left (column_metrics
        (seqs.map (fun s => keep.map (fun i => s.getD i '-')))) fcq mg 0 keep.length = 0 := by
      rw [trim_left, dif_neg]
      intro hcon
      have h2c := hcon.2
      rw [hf0] at h2c
      exact absurd h2c (by simp)
    have htr : trim_right (column_metrics
        (seqs.map (fun s => keep.map (fun i => s.getD i '-')))) fcq mg 0 keep.length =
        keep.length := by
      rw [trim_right, dif_neg]
      intro hcon
      have h2c := hcon.2
      rw [hfK] at h2c
      exact absurd h2c (by simp)
    have hst : soft_trim_block (0, keep.length) (column_metrics
        (seqs.map (fun s => keep.map (fun i => s.getD i '-')))) fcq mg =
        some (0, keep.length) := by
      simp only [soft_trim_block]
      rw [htl, htr, if_pos hK0]
    have hf2 : (match soft_trim_block ((0 : Nat), keep.length) (column_metrics
        (seqs.map (fun s => keep.map (fun i => s.getD i '-')))) fcq mg with
        | some tb => if mbl ≤ (tb.2 : Int) - (tb.1 : Int) then some tb else none
        | none => none) = some ((0 : Nat), keep.length) := by
      rw [hst]
      show (if mbl ≤ ((keep.length : Nat) : Int) - ((0 : Nat) : Int) then
        some ((0 : Nat), keep.length) else none) = some ((0 : Nat), keep.length)
      rw [if_pos (by push_cast; omega)]
    simp only [gblock_blocks]
    rw [hfb]
    exact filterMap_singleton _ _ _ hf2

lemma range'_zero_map_getD (l : List Char) (d : Char) :
    (List.range' 0 l.length).map (fun i => l.getD i d) = l := by
  rw [← List.range_eq_range']
  exact range_map_getD_char l d

/-- Claim C2 (amended): with `drop_all_gap_columns = False` held fixed,
`gblock_filter` is idempotent: whenever it succeeds, its output is a fixed
point of the same filter — every kept column passes the second-pass mask
(base columns stay base-true and absorbed runs are re-absorbed inside their
block), so the second pass keeps a single block covering all columns. -/
theorem claim2_filter_idempotent_no_drop (entries out : List (String × List Char))
    (mbl : Int) (mg mc : ℚ) (fc : Option ℚ) (mnr : Int)
    (h : gblock_filter entries mbl mg mc fc false mnr = .ok out) :
    gblock_filter out mbl mg mc fc false mnr = .ok out := by
  have heq : all_equal_length entries = true := by
    by_contra hc
    have hf : all_equal_length entries = false := by
      cases h2 : all_equal_length entries
      · rfl
      · exact absurd h2 hc
    rw [gblock_filter, if_pos hf] at h
    simp at h
  have hne : entries ≠ [] := by
    intro h0
    subst h0
    simp [all_equal_length] at heq
  by_cases hb : gblock_blocks (entries.map (fun e => e.2)) mbl mg mc fc mnr = []
  · have hout : out = entries.map (fun e => (e.1, ([] : List Char))) := by
      have h2 := gblock_filter_of_blocks_nil entries mbl mg mc fc false mnr heq hb
      rw [h2] at h
      exact (Except.ok.inj h).symm
    have hcm : column_metrics (out.map (fun e => e.2)) = [] := by
      obtain ⟨a, t, hat⟩ := List.exists_cons_of_ne_nil hne
      rw [hout, hat]
      rfl
    have hmask : gblock_mask (out.map (fun e => e.2)) mg mc mnr = [] :=
      List.eq_nil_of_length_eq_zero (by rw [gblock_mask_length, hcm]; rfl)
    have hb2 : gblock_blocks (out.map (fun e => e.2)) mbl mg mc fc mnr = [] := by
      cases fc with
      | none =>
        simp only [gblock_blocks]
        rw [hmask]
        rfl
      | some fcq =>
        simp only [gblock_blocks]
        rw [hmask]
        rfl
    have heq2 : all_equal_length out = true := by
      apply all_equal_length_of_const out 0 (by rw [hout]; simpa using hne)
      intro p hp
      rw [hout] at hp
      obtain ⟨e, _, hep⟩ := List.mem_map.mp hp
      rw [← hep]
      rfl
    rw [gblock_filter_of_blocks_nil out mbl mg mc fc false mnr heq2 hb2, hout, List.map_map]
    rfl
  · have hout : out = entries.map (fun e => (e.1,
        (gblock_keep (entries.map (fun e => e.2)) mbl mg mc fc false mnr).map
          (fun i => e.2.getD i '-'))) := by
      have h2 := gblock_filter_of_blocks_ne entries mbl mg mc fc false mnr heq hb
      rw [h2] at h
      exact (Except.ok.inj h).symm
    have hkeepdef : gblock_keep (entries.map (fun e => e.2)) mbl mg mc fc false mnr =
        (gblock_blocks (entries.map (fun e => e.2)) mbl mg mc fc mnr).flatMap
          (fun b => List.range' b.1 (b.2 - b.1)) := gblock_keep_false _ _ _ _ _ _
    obtain ⟨b, rest, hbr⟩ := List.exists_cons_of_ne_nil hb
    have hspecb := gblock_blocks_spec (entries.map (fun e => e.2)) mbl mg mc fc mnr b
      (by rw [hbr]; exact List.mem_cons_self b rest)
    have hKlen : (b.2 - b.1) ≤
        (gblock_keep (entries.map (fun e => e.2)) mbl mg mc fc false mnr).length := by
      rw [hkeepdef, hbr, List.flatMap_cons, List.length_append, List.length_range']
      omega
    have hK0 : 0 <
        (gblock_keep (entries.map (fun e => e.2)) mbl mg mc fc false mnr).length := by
      have h1 := hspecb.1
      omega
    have hKmbl : mbl ≤
        ((gblock_keep (entries.map (fun e => e.2)) mbl mg mc fc false mnr).length : Int) := by
      have h1 := hspecb.1
      have h3 := hspecb.2.2.1
      omega
    have hs2 : entries.map (fun e => e.2) ≠ [] := by simpa using hne
    have hseqs2 : out.map (fun e => e.2) =
        (entries.map (fun e => e.2)).map (fun s =>
          (gblock_keep (entries.map (fun e => e.2)) mbl mg mc fc false mnr).map
            (fun i => s.getD i '-')) := by
      rw [hout, List.map_map, List.map_map]
      rfl
    have hblocks2 : gblock_blocks (out.map (fun e => e.2)) mbl mg mc fc mnr =
        [(0, (gblock_keep (entries.map (fun e => e.2)) mbl mg mc fc false mnr).length)] := by
      have hf1 := blocks2_eq (entries.map (fun e => e.2)) mbl mg mc fc mnr
        (gblock_keep (entries.map (fun e => e.2)) mbl mg mc fc false mnr)
      have hf2 := hf1 hs2
      have hf3 := hf2 hkeepdef
      have hf4 := hf3 hK0
      have hB2 := hf4 hKmbl
      rw [hseqs2]
      exact hB2
    have heq2 : all_equal_length out = true := by
      apply all_equal_length_of_const out
        (gblock_keep (entries.map (fun e => e.2)) mbl mg mc fc false mnr).length
        (by rw [hout]; simpa using hne)
      intro p hp
      rw [hout] at hp
      obtain ⟨e, _, hep⟩ := List.mem_map.mp hp
      rw [← hep]
      simp
    rw [gblock_filter_of_blocks_ne out mbl mg mc fc false mnr heq2 (by rw [hblocks2]; simp)]
    have hkeep2 : gblock_keep (out.map (fun e => e.2)) mbl mg mc fc false mnr =
        List.range' 0
          (gblock_keep (entries.map (fun e => e.2)) mbl mg mc fc false mnr).length := by
      rw [gblock_keep_false, hblocks2]
      simp
    rw [hkeep2]
    have hfix : out.map (fun e => (e.1,
        (List.range' 0 (gblock_keep (entries.map (fun e => e.2)) mbl mg mc fc
          false mnr).length).map (fun i => e.2.getD i '-'))) = out := by
      have h2 : ∀ p ∈ out, (p.1,
          (List.range' 0 (gblock_keep (entries.map (fun e => e.2)) mbl mg mc fc
            false mnr).length).map (fun i => p.2.getD i '-')) = id p := by
        intro p hp
        rw [hout] at hp
        obtain ⟨e, _, hep⟩ := List.mem_map.mp hp
        have hplen : p.2.length =
            (gblock_keep (entries.map (fun e => e.2)) mbl mg mc fc false mnr).length := by
          rw [← hep]
          simp
        show (p.1, (List.range' 0 (gblock_keep (entries.map (fun e => e.2)) mbl mg mc fc
          false mnr).length).map (fun i => p.2.getD i '-')) = p
        rw [← hplen, range'_zero_map_getD]
      rw [List.map_congr_left h2, List.map_id]
    rw [hfix]

lemma c2wit_mets : column_metrics [['A', '-']] = [⟨0, 1⟩, ⟨1, 0⟩] := by
  simp only [column_metrics]
  rw [show List.range (([['A', '-']] : List (List Char)).headD []).length = [0, 1] from rfl]
  simp [metAt]

lemma c2wit_blocks :
    gblock_blocks ([("s", ['A', '-'])].map (fun e => e.2)) 1 (1/2) (1/2) none 0 =
      [(0, 1)] := by
  show gblock_blocks [['A', '-']] 1 (1/2) (1/2) none 0 = [(0, 1)]
  simp only [gblock_blocks, gblock_mask, c2wit_mets]
  have hb : base_mask [⟨0, 1⟩, ⟨1, 0⟩] (1/2) (1/2) = [true, false] := by
    norm_num [base_mask]
  rw [hb]
  rfl

lemma c2wit_pass1 :
    gblock_filter [("s", ['A', '-'])] 1 (1/2) (1/2) none false 0 = .ok [("s", ['A'])] := by
  rw [gblock_filter_of_blocks_ne [("s", ['A', '-'])] 1 (1/2) (1/2) none false 0 (by decide)
    (by rw [c2wit_blocks]; simp)]
  have hkeep : gblock_keep ([("s", ['A', '-'])].map (fun e => e.2)) 1 (1/2) (1/2)
      none false 0 = [0] := by
    rw [gblock_keep_false, c2wit_blocks]
    rfl
  rw [hkeep]
  rfl

/-- Witness for `claim2_filter_idempotent_no_drop`: one sequence `A-` whose
gap column is dropped; re-filtering the output `A` leaves it unchanged. -/
theorem claim2_filter_idempotent_no_drop_witness :
    gblock_filter [("s", ['A', '-'])] 1 (1/2) (1/2) none false 0 = .ok [("s", ['A'])] ∧
    gblock_filter [("s", ['A'])] 1 (1/2) (1/2) none false 0 = .ok [("s", ['A'])] :=
  ⟨c2wit_pass1,
    claim2_filter_idempotent_no_drop [("s", ['A', '-'])] [("s", ['A'])] 1 (1/2) (1/2)
      none 0 c2wit_pass1⟩

end GBlock
